import Mathlib

/-!
# Verification of the release-notes generation script

This file gives a shallow embedding of the pure logic of the repository's
release-notes script (title classification, title normalization, version
advancement, issue/PR grouping, section rendering, draft-release publishing,
and the error-handling of the optional API fetches), and proves or refutes
the specification's claims about it.

Strings are processed as `List Char`; the ECMAScript regular expressions of
the source are translated into explicit anchored scanners.  Character case
mapping uses `Char.toUpper` / `Char.toLower`, which model the ASCII fragment
of JavaScript's `toUpperCase` / `toLowerCase` (the classification vocabulary
and the tags the script rewrites are ASCII).
-/

namespace ReleaseNotes

/-- The ECMAScript `\s` character class: the code points matched by `\s`
in a JavaScript regular expression (whitespace and line terminators). -/
def jsIsSpace (c : Char) : Bool :=
  c.toNat = 9 || c.toNat = 10 || c.toNat = 11 || c.toNat = 12 || c.toNat = 13 ||
  c.toNat = 32 || c.toNat = 160 || c.toNat = 5760 ||
  (8192 ≤ c.toNat && c.toNat ≤ 8202) ||
  c.toNat = 8232 || c.toNat = 8233 || c.toNat = 8239 || c.toNat = 8287 ||
  c.toNat = 12288 || c.toNat = 65279

/-- The regex class `\p{Emoji_Presentation}\p{Extended_Pictographic}`,
modelled by the principal emoji blocks (Miscellaneous Symbols, Dingbats,
Miscellaneous Symbols and Arrows, and the supplementary emoji planes). -/
def isEmojiChar (c : Char) : Bool :=
  (0x1F000 ≤ c.toNat && c.toNat ≤ 0x1FAFF) ||
  (0x2600 ≤ c.toNat && c.toNat ≤ 0x27BF) ||
  (0x2B00 ≤ c.toNat && c.toNat ≤ 0x2BFF)

/-- JavaScript `String.prototype.trim`: strip `\s` characters at both ends. -/
def trimJS (l : List Char) : List Char :=
  ((l.dropWhile jsIsSpace).reverse.dropWhile jsIsSpace).reverse

/-- Auxiliary for `splitOnComma` (JavaScript `String.prototype.split(",")`). -/
def splitOnCommaAux : List Char → List Char → List (List Char)
  | [], acc => [acc.reverse]
  | c :: cs, acc =>
    if c = ',' then acc.reverse :: splitOnCommaAux cs [] else splitOnCommaAux cs (c :: acc)

/-- JavaScript `s.split(",")`: split at every comma; `"".split(",") = [""]`. -/
def splitOnComma (l : List Char) : List (List Char) := splitOnCommaAux l []

/-- The capitalization step of the normalizer's callback:
`p.charAt(0).toUpperCase() + p.slice(1).toLowerCase()` (ASCII case mapping). -/
def capitalizeJS (l : List Char) : List Char :=
  match l with
  | [] => []
  | c :: cs => c.toUpper :: cs.map Char.toLower

/-- The alternative `([^\s:]+)` of the prefix regex: a maximal nonempty run
of non-space, non-colon characters. -/
def matchAlt2 (l1 : List Char) : Option (List Char × List Char) :=
  if (l1.takeWhile (fun c => !jsIsSpace c && c ≠ ':')).isEmpty then none
  else some (l1.takeWhile (fun c => !jsIsSpace c && c ≠ ':'),
    l1.dropWhile (fun c => !jsIsSpace c && c ≠ ':'))

/-- The trailing `\s*:?\s*` of the prefix regex: optional spaces, at most one
colon, then optional spaces, consumed greedily. -/
def eatSep (l : List Char) : List Char :=
  match l.dropWhile jsIsSpace with
  | [] => []
  | c :: r => if c = ':' then r.dropWhile jsIsSpace else c :: r

/-- `matchAlt2` with the trailing separator consumed. -/
def matchAlt2Sep (l1 : List Char) : Option (List Char × List Char) :=
  match matchAlt2 l1 with
  | none => none
  | some (tok, r) => some (tok, eatSep r)

/-- The anchored match of `/^\s*(?:\[([^\]]+)\]|([^\s:]+))\s*:?\s*/i` used by
`classifyTitle` and `normalizeTitlePrefixes`: returns the captured token
(`match[1] || match[2]`) and the remainder of the input after the whole
match, or `none` when the regex does not match. -/
def matchPrefixToken (l : List Char) : Option (List Char × List Char) :=
  match l.dropWhile jsIsSpace with
  | c :: t =>
    if c = '[' ∧ (t.dropWhile (fun x => x ≠ ']')).head? = some ']'
        ∧ ¬(t.takeWhile (fun x => x ≠ ']')).isEmpty then
      some (t.takeWhile (fun x => x ≠ ']'), eatSep ((t.dropWhile (fun x => x ≠ ']')).tail))
    else matchAlt2Sep (c :: t)
  | [] => none

/-- The prefix-to-section table of the `classifyTitle` variant under
verification (the `map` literal inside `classifyTitle`). -/
def PREFIX_MAP : List (String × String) :=
  [("task", "🚀 Tasks"), ("composite", "🚀 Tasks"),
   ("ux/ui", "🔧 Enhancements"), ("enhancement", "🔧 Enhancements"),
   ("bug", "🐞 Bug Fixes"),
   ("feat", "✨ New Features"), ("feature", "✨ New Features"),
   ("refactor", "🛠 Refactoring"),
   ("docs", "📚 Documentation"), ("doc", "📚 Documentation"),
   ("test", "✅ Tests"), ("chore", "⚙️ Chores"),
   ("proposal", "💡 Ideas & Proposals"), ("idea", "💡 Ideas & Proposals"),
   ("discussion", "💡 Ideas & Proposals")]

/-- The fixed section enumeration of the script, in the order the `sections`
object literal declares its keys (which is the iteration order of
`Object.entries` over it, all keys being non-numeric strings). -/
def sectionOrder : List String :=
  ["🚀 Tasks", "🔧 Enhancements", "🐞 Bug Fixes", "✨ New Features", "🛠 Refactoring",
   "📚 Documentation", "✅ Tests", "⚙️ Chores", "💡 Ideas & Proposals", "Other"]

/-- The raw-prefix extraction step of `classifyTitle`: strip leading
whitespace/emoji, match the prefix regex, take the first comma-separated
part of the captured token, trim it; empty or absent gives `none`
(`rawPrefix || null`). -/
def rawPrefixOf (title : String) : Option String :=
  match matchPrefixToken (title.toList.dropWhile (fun c => jsIsSpace c || isEmojiChar c)) with
  | none => none
  | some (tok, _) =>
    let raw := trimJS (tok.takeWhile (fun c => c ≠ ','))
    if raw.isEmpty then none else some (String.mk raw)

/-- `classifyTitle` (the flexible-prefix variant): classify a title into a
section name by looking its lower-cased detected prefix up in `PREFIX_MAP`,
defaulting to `"Other"`. -/
def classifyTitle (title : String) : String :=
  match rawPrefixOf title with
  | none => "Other"
  | some raw => (List.lookup (String.mk (raw.toList.map Char.toLower)) PREFIX_MAP).getD "Other"

/-- One formatted tag of the normalizer's callback: `[` + capitalized
trimmed part + `]`. -/
def wrapCap (p : List Char) : List Char :=
  '[' :: (capitalizeJS (trimJS p) ++ [']'])

/-- `arr.join(" ")`. -/
def joinSpace : List (List Char) → List Char
  | [] => []
  | [w] => w
  | w :: ws => w ++ ' ' :: joinSpace ws

/-- `normalizeTitlePrefixes`: rewrite the leading prefix token (bracketed or
bare) into bracketed capitalized form, splitting a comma-separated token
into one bracketed tag per part; a title with no match is returned
unchanged. -/
def normalizeTitlePrefixes (title : String) : String :=
  match matchPrefixToken title.toList with
  | none => title
  | some (tok, rest) =>
    String.mk (joinSpace ((splitOnComma tok).map wrapCap) ++ ' ' :: rest)

/-- ASCII letters and `'/'`: the characters the classification vocabulary is
built from (the condition under which normalization is idempotent). -/
def isTagChar (c : Char) : Bool :=
  (65 ≤ c.toNat && c.toNat ≤ 90) || (97 ≤ c.toNat && c.toNat ≤ 122) || c.toNat = 47

/-- The known prefix vocabulary (the keys of `PREFIX_MAP`). -/
def knownVocab : List String := PREFIX_MAP.map Prod.fst

/-- Modelled from the spec: a title "carries a recognizable prefix" when it
starts with a known bracketed tag (first comma-separated token in the known
vocabulary), or with a known leading word followed by a colon, dash or
space. -/
def hasRecognizablePrefix (t : String) : Bool :=
  (match t.toList with
   | '[' :: r =>
     (match r.dropWhile (fun c => c ≠ ']') with
      | ']' :: _ =>
        knownVocab.contains (String.mk
          ((trimJS ((r.takeWhile (fun c => c ≠ ']')).takeWhile (fun c => c ≠ ','))).map Char.toLower))
      | _ => false)
   | _ => false)
  ||
  (let w := t.toList.takeWhile (fun c => isTagChar c)
   knownVocab.contains (String.mk (w.map Char.toLower)) &&
   (match t.toList.drop w.length with
    | ':' :: _ => true
    | '-' :: _ => true
    | c :: _ => jsIsSpace c
    | [] => false))

/-! ## Version advancement (`nextVersion`) -/

/-- Decimal digit character for `d < 10`. -/
def digitChar (d : Nat) : Char := Char.ofNat (48 + d)

/-- Numeric value of a digit character. -/
def digitVal (c : Char) : Nat := c.toNat - 48

/-- Auxiliary decimal rendering: digits of `n` (most significant first) in
front of `acc`, structurally recursive on a fuel bound (`n` digits are
produced exactly when `n ≤ fuel`); renders nothing for `0`. -/
def natDecAux : Nat → Nat → List Char → List Char
  | _, 0, acc => acc
  | 0, _ + 1, acc => acc
  | fuel + 1, n + 1, acc =>
    natDecAux fuel ((n + 1) / 10) (digitChar ((n + 1) % 10) :: acc)

/-- Decimal rendering of a natural number, as produced by the template
literal `` `v${major}.${minor}.${patch}` `` (the script's version numbers
are far below the 2^53 bound where JavaScript numbers stop being exact). -/
def natDec (n : Nat) : List Char := if n = 0 then ['0'] else natDecAux n n []

/-- `Number` on a digit string: left fold accumulating decimal digits. -/
def parseDigits (l : List Char) : Nat := l.foldl (fun a c => a * 10 + digitVal c) 0

/-- The anchored match of `/^v(\d+)\.(\d+)\.(\d+)/` (note: no end anchor):
the three numeric captures and the remainder of the tag, or `none` when the
tag does not start with this shape. -/
def parseSemverPrefix (l : List Char) : Option (Nat × Nat × Nat × List Char) :=
  match l with
  | 'v' :: r =>
    let d1 := r.takeWhile Char.isDigit
    if d1.isEmpty then none else
    match r.dropWhile Char.isDigit with
    | '.' :: r2 =>
      let d2 := r2.takeWhile Char.isDigit
      if d2.isEmpty then none else
      match r2.dropWhile Char.isDigit with
      | '.' :: r3 =>
        let d3 := r3.takeWhile Char.isDigit
        if d3.isEmpty then none else
        some (parseDigits d1, parseDigits d2, parseDigits d3, r3.dropWhile Char.isDigit)
      | _ => none
    | _ => none
  | _ => none

/-- `nextVersion`: `"v0.1.0"` for a missing tag or one that does not start
with `v(\d+).(\d+).(\d+)`; otherwise the same major/minor with the patch
component incremented. -/
def nextVersion (lastTag : Option String) : String :=
  match lastTag with
  | none => "v0.1.0"
  | some s =>
    match parseSemverPrefix s.toList with
    | none => "v0.1.0"
    | some (major, minor, patch, _) =>
      String.mk ('v' :: natDec major ++ '.' :: natDec minor ++ '.' :: natDec (patch + 1))

/-- Auxiliary for `strictSemverTag`: split at every `'.'`. -/
def splitOnDotAux : List Char → List Char → List (List Char)
  | [], acc => [acc.reverse]
  | c :: cs, acc =>
    if c = '.' then acc.reverse :: splitOnDotAux cs [] else splitOnDotAux cs (c :: acc)

/-- Modelled from the spec: a tag "matching a strict `vMAJOR.MINOR.PATCH`
pattern" — the whole tag is a `v` followed by exactly three nonempty decimal
numbers separated by dots, with nothing before or after. -/
def strictSemverTag (s : String) : Bool :=
  match s.toList with
  | 'v' :: r =>
    match splitOnDotAux r [] with
    | [a, b, c] =>
      !a.isEmpty && !b.isEmpty && !c.isEmpty &&
      a.all Char.isDigit && b.all Char.isDigit && c.all Char.isDigit
    | _ => false
  | _ => false

/-! ## Issue/PR grouping and rendering (the pure part of `main`) -/

/-- A merged pull request as consumed by the grouping phase: its number,
title, and the linked issues returned for it (number and title each). -/
structure PRInput where
  number : Nat
  title : String
  linked : List (Nat × String)
deriving DecidableEq

/-- One entry of the `issueMap` object: issue number, issue title (from the
first pull request that linked it), and the pull-request numbers pushed so
far, in arrival order. -/
structure IMapEntry where
  num : Nat
  title : String
  prs : List Nat
deriving DecidableEq

/-- `issueMap[issue.number]` update: create the entry on first sight
(keeping the title seen first), then push the pull-request number. -/
def insertPR : List IMapEntry → Nat → Nat × String → List IMapEntry
  | [], p, i => [⟨i.1, i.2, [p]⟩]
  | e :: es, p, i =>
    if e.num = i.1 then { e with prs := e.prs ++ [p] } :: es
    else e :: insertPR es p i

/-- The `issueMap` / `prsWithoutIssue` building loop of `main`: each merged
pull request either contributes its number to the entry of every issue it
links, or is appended to the standalone list when it links none. -/
def buildIssueMapAux : List IMapEntry → List PRInput → List PRInput → List IMapEntry × List PRInput
  | m, lone, [] => (m, lone)
  | m, lone, pr :: rest =>
    if pr.linked.isEmpty then buildIssueMapAux m (lone ++ [pr]) rest
    else buildIssueMapAux (pr.linked.foldl (fun acc i => insertPR acc pr.number i) m) lone rest

/-- `issueMap` and `prsWithoutIssue` for a list of merged pull requests. -/
def buildIssueMap (prs : List PRInput) : List IMapEntry × List PRInput :=
  buildIssueMapAux [] [] prs

/-- A rendered line of the notes, kept structured: an issue entry carries
the issue number, its (normalized) title and the sorted linked PR numbers;
a standalone entry carries the PR number and its (normalized) title. -/
inductive Entry where
  | issue (num : Nat) (title : String) (prs : List Nat)
  | standalone (num : Nat) (title : String)
deriving DecidableEq

/-- The number rendered first in an entry's line (`parseInt` of the first
`#(\d+)` of the rendered string), used by the per-section sort. -/
def Entry.leadNum : Entry → Nat
  | .issue n _ _ => n
  | .standalone n _ => n

/-- Whether a pull-request number occurs in an entry: as one of an issue
entry's listed PRs, or as a standalone entry's own number. -/
def Entry.mentionsPR : Entry → Nat → Bool
  | .issue _ _ prs, p => prs.contains p
  | .standalone n _, p => n == p

/-- Insert a number in front of the first element not below it. -/
def insertSorted (x : Nat) : List Nat → List Nat
  | [] => [x]
  | y :: ys => if x ≤ y then x :: y :: ys else y :: insertSorted x ys

/-- `info.prs.sort((a, b) => a - b)`: ascending sort (insertion sort; the
result is the ascending reordering, which is all the rendering observes). -/
def sortNat (l : List Nat) : List Nat := l.foldr insertSorted []

/-- `sections[section].push(entry)`: append the entry to the group whose
name matches. -/
def pushEntry (g : List (String × List Entry)) (name : String) (e : Entry) :
    List (String × List Entry) :=
  g.map (fun s => if s.1 = name then (s.1, s.2 ++ [e]) else s)

/-- The entry pushed for an `issueMap` entry (part_002's main loop:
`#${num} ${normalizeTitlePrefixes(info.title)}` with sorted PR refs). -/
def issueEntryOf (e : IMapEntry) : Entry :=
  .issue e.num (normalizeTitlePrefixes e.title) (sortNat e.prs)

/-- Push every issue entry into the group chosen by classifying the raw
issue title. -/
def pushIssues : List (String × List Entry) → List IMapEntry → List (String × List Entry)
  | g, [] => g
  | g, e :: es => pushIssues (pushEntry g (classifyTitle e.title) (issueEntryOf e)) es

/-- The entry pushed for a standalone pull request (part_002's second loop:
`#${pr.number} ${normalizeTitlePrefixes(pr.title)}`). -/
def standaloneEntryOf (pr : PRInput) : Entry :=
  .standalone pr.number (normalizeTitlePrefixes pr.title)

/-- Push every standalone pull request into the group chosen by classifying
its title. -/
def pushStandalones : List (String × List Entry) → List PRInput → List (String × List Entry)
  | g, [] => g
  | g, pr :: rest =>
    pushStandalones (pushEntry g (classifyTitle pr.title) (standaloneEntryOf pr)) rest

/-- The `sections` object literal: every section name mapped to an empty
item list, in declaration order. -/
def emptyGroups : List (String × List Entry) := sectionOrder.map (fun n => (n, []))

/-- The grouping phase of `main`: build the issue map, then push issue
entries and standalone entries into their sections. -/
def sectionGroups (prs : List PRInput) : List (String × List Entry) :=
  pushStandalones (pushIssues emptyGroups (buildIssueMap prs).1) (buildIssueMap prs).2

/-- `info.prs.sort(...).map(n => "#" + n).join(", ")`. -/
def renderPRRefs (prs : List Nat) : String :=
  String.intercalate ", " (prs.map (fun n => "#" ++ String.mk (natDec n)))

/-- The rendered text of one entry. -/
def renderEntry : Entry → String
  | .issue n title prs =>
    "#" ++ String.mk (natDec n) ++ " " ++ title ++ "\n↳ PRs: " ++ renderPRRefs prs
  | .standalone n title => "#" ++ String.mk (natDec n) ++ " " ++ title

/-- The per-section item sort: ascending by the entry's leading number. -/
def sortEntries (l : List Entry) : List Entry := l.mergeSort (fun a b => a.leadNum ≤ b.leadNum)

/-- One rendered section: heading, sorted bulleted items, blank line. -/
def renderSection (name : String) (items : List Entry) : String :=
  "### " ++ name ++ "\n" ++
  String.join ((sortEntries items).map (fun e => "- " ++ renderEntry e ++ "\n")) ++ "\n"

/-- The full release-notes body: top heading, then every non-empty section
in the fixed `sectionOrder`. -/
def renderNotes (prs : List PRInput) : String :=
  "## Draft Release Notes\n\n" ++
  String.join (((sectionGroups prs).filter (fun s => !s.2.isEmpty)).map
    (fun s => renderSection s.1 s.2))

/-- The section headings of the rendered output, in output order. -/
def nonEmptySectionNames (prs : List PRInput) : List String :=
  ((sectionGroups prs).filter (fun s => !s.2.isEmpty)).map (fun s => s.1)

/-- Modelled from the spec: the section enumeration in the order the spec
lists it — "Tasks, Features, Enhancements, Bug Fixes, Refactoring, Docs,
Tests, Chores, Ideas/Proposals, Other" — each name written as this script
variant displays it. -/
def specSectionOrder : List String :=
  ["🚀 Tasks", "✨ New Features", "🔧 Enhancements", "🐞 Bug Fixes", "🛠 Refactoring",
   "📚 Documentation", "✅ Tests", "⚙️ Chores", "💡 Ideas & Proposals", "Other"]

/-- Whether an entry is the issue entry of issue number `inum`. -/
def isIssueEntryFor (inum : Nat) : Entry → Bool
  | .issue n _ _ => n == inum
  | .standalone _ _ => false

/-- Total number of entries across all sections satisfying `P`. -/
def countEntries (g : List (String × List Entry)) (P : Entry → Bool) : Nat :=
  (g.map (fun sec => sec.2.countP P)).sum

/-- Number of sections under which pull request `p` occurs (sections with at
least one entry mentioning `p`). -/
def mentionsCountSections (g : List (String × List Entry)) (p : Nat) : Nat :=
  g.countP (fun sec => sec.2.any (fun e => e.mentionsPR p))

/-- The documented example: issue 10 linked by pull requests 11 and 12. -/
def c4Input : List PRInput :=
  [⟨11, "[Feat] implement part A", [(10, "[Feat] add X")]⟩,
   ⟨12, "[Feat] implement part B", [(10, "[Feat] add X")]⟩]

/-- One pull request closing two issues that classify into different
sections. -/
def c5Input : List PRInput :=
  [⟨5, "mixed work", [(1, "[Bug] crash on load"), (2, "[Feat] add export")]⟩]

/-- A two-PR input exercising the Enhancements and New Features sections. -/
def c7Input : List PRInput :=
  [⟨1, "[Enhancement] faster rendering", []⟩, ⟨2, "[Feat] dark mode", []⟩]

/-! ## Draft-release publishing -/

/-- A release record on the hosting platform. -/
structure Release where
  id : Nat
  tag : String
  name : String
  body : String
  draft : Bool
  createdAt : Nat
deriving DecidableEq

/-- The platform's release list as `listReleases` returns it (most recent
first), plus the id the platform will assign to the next created release. -/
structure RelState where
  releases : List Release
  nextId : Nat
deriving DecidableEq

/-- `releases.find(r => r.draft)` over `listReleases({ per_page: 10 })`:
the first draft among the first 10 listed releases. -/
def findDraft (rs : List Release) : Option Release := (rs.take 10).find? (fun r => r.draft)

/-- `updateRelease({ release_id, name, body })`: overwrite name and body of
the release with the given id, leaving everything else unchanged. -/
def updateRelease (rs : List Release) (rid : Nat) (nm bd : String) : List Release :=
  rs.map (fun r => if r.id = rid then { r with name := nm, body := bd } else r)

/-- The tag of the latest published release among the first 20 listed
(`listReleases({ per_page: 20 })` filtered to non-drafts, first or none). -/
def lastTagOf (rs : List Release) : Option String :=
  ((rs.take 20).filter (fun r => !r.draft)).head?.map (fun r => r.tag)

/-- The find-or-create step of `main`: update the first listed draft in
place, or create a fresh draft release (which the platform lists first). -/
def publish (s : RelState) (body : String) : RelState :=
  match findDraft s.releases with
  | some d => { s with releases := updateRelease s.releases d.id ("Release " ++ d.tag) body }
  | none =>
    let newTag := nextVersion (lastTagOf s.releases)
    { releases := ⟨s.nextId, newTag, "Release " ++ newTag, body, true,
        (s.releases.map (fun r => r.createdAt + 1)).foldl max 0⟩ :: s.releases,
      nextId := s.nextId + 1 }

/-- Number of draft releases in the state. -/
def countDrafts (s : RelState) : Nat := s.releases.countP (fun r => r.draft)

/-- Ten published releases listed before an old draft: the draft is the
11th listed release, beyond the `per_page: 10` window of the draft lookup. -/
def c6State : RelState :=
  { releases :=
      [⟨11, "v0.1.10", "Release v0.1.10", "", false, 110⟩,
       ⟨10, "v0.1.9", "Release v0.1.9", "", false, 109⟩,
       ⟨9, "v0.1.8", "Release v0.1.8", "", false, 108⟩,
       ⟨8, "v0.1.7", "Release v0.1.7", "", false, 107⟩,
       ⟨7, "v0.1.6", "Release v0.1.6", "", false, 106⟩,
       ⟨6, "v0.1.5", "Release v0.1.5", "", false, 105⟩,
       ⟨5, "v0.1.4", "Release v0.1.4", "", false, 104⟩,
       ⟨4, "v0.1.3", "Release v0.1.3", "", false, 103⟩,
       ⟨3, "v0.1.2", "Release v0.1.2", "", false, 102⟩,
       ⟨2, "v0.1.1", "Release v0.1.1", "", false, 101⟩,
       ⟨1, "v0.0.9", "Release v0.0.9", "", true, 100⟩],
    nextId := 12 }

/-! ## Error handling of the optional fetches -/

/-- The `try`/`catch` around the per-PR linked-issue query: an error is
swallowed and treated as no linked issues. -/
def getLinkedIssuesResult (resp : Except String (List (Nat × String))) : List (Nat × String) :=
  match resp with
  | .error _ => []
  | .ok l => l

/-- The `try`/`catch` around `listReleases` in `main`: an error leaves
`lastRelease` as `null`; a successful response is filtered to published
releases, taking the first or none. -/
def lastReleaseResult (resp : Except String (List Release)) : Option Release :=
  match resp with
  | .error _ => none
  | .ok data => (data.filter (fun r => !r.draft)).head?

/-- A closed pull request as returned by the REST list, before the merged
filter: number, title, and merge timestamp (absent when never merged). -/
structure RawPR where
  number : Nat
  title : String
  mergedAt : Option Nat
deriving DecidableEq

/-- `pr.merged_at && (!since || new Date(pr.merged_at) > since)`. -/
def mergedFilter (since : Option Nat) (pr : RawPR) : Bool :=
  match pr.mergedAt, since with
  | none, _ => false
  | some _, none => true
  | some m, some s => s < m

/-- The run from the two optional fetches to the rendered notes: compute
`lastRelease` (absent on error), filter merged pull requests, resolve each
one's linked issues (empty on error), group and render. -/
def buildNotes (relResp : Except String (List Release))
    (linkedResp : Nat → Except String (List (Nat × String)))
    (prs : List RawPR) : String :=
  let since := (lastReleaseResult relResp).map (fun r => r.createdAt)
  let merged := prs.filter (mergedFilter since)
  renderNotes (merged.map (fun pr => ⟨pr.number, pr.title, getLinkedIssuesResult (linkedResp pr.number)⟩))

/-! ## The `first: 10` truncation of the linked-issue query -/

/-- Modelled from the spec: the GraphQL argument `first: 10` in the
`closingIssuesReferences(first: 10)` query makes the server return at most
the first 10 closing issues of the pull request. -/
def closingIssuesResponse (allClosing : List (Nat × String)) : List (Nat × String) :=
  allClosing.take 10

/-- `getLinkedIssues` on a successful query: the nodes of the truncated
response, each mapped to its number/title pair. -/
def getLinkedIssues (allClosing : List (Nat × String)) : List (Nat × String) :=
  (closingIssuesResponse allClosing).map (fun i => (i.1, i.2))

/-! ### Lemmas about decimal rendering -/

theorem natDecAux_append : ∀ (fuel n : Nat) (acc : List Char),
    natDecAux fuel n acc = natDecAux fuel n [] ++ acc := by
  intro fuel
  induction fuel with
  | zero =>
    intro n acc
    match n with
    | 0 => simp [natDecAux]
    | n + 1 => simp [natDecAux]
  | succ f ih =>
    intro n acc
    match n with
    | 0 => simp [natDecAux]
    | n + 1 =>
      rw [natDecAux, natDecAux, ih _ (digitChar ((n + 1) % 10) :: acc),
        ih _ [digitChar ((n + 1) % 10)]]
      simp

theorem digitVal_digitChar {r : Nat} (h : r < 10) : digitVal (digitChar r) = r := by
  interval_cases r <;> decide

theorem isDigit_digitChar {r : Nat} (h : r < 10) : (digitChar r).isDigit = true := by
  interval_cases r <;> decide

theorem parseDigits_natDecAux : ∀ (n fuel : Nat), n ≤ fuel →
    parseDigits (natDecAux fuel n []) = n := by
  intro n
  induction n using Nat.strong_induction_on with
  | _ n ih =>
    intro fuel hle
    match n, fuel with
    | 0, 0 => simp [natDecAux, parseDigits]
    | 0, f + 1 => simp [natDecAux, parseDigits]
    | n + 1, 0 => omega
    | n + 1, f + 1 =>
      rw [natDecAux, natDecAux_append]
      have hq : (n + 1) / 10 < n + 1 := Nat.div_lt_self (Nat.succ_pos n) (by decide)
      have hqf : (n + 1) / 10 ≤ f := by omega
      have hstep : parseDigits (natDecAux f ((n + 1) / 10) [] ++ [digitChar ((n + 1) % 10)])
          = parseDigits (natDecAux f ((n + 1) / 10) []) * 10
            + digitVal (digitChar ((n + 1) % 10)) := by
        simp [parseDigits, List.foldl_append]
      rw [hstep, ih _ hq f hqf, digitVal_digitChar (Nat.mod_lt _ (by decide))]
      omega

theorem parseDigits_natDec (n : Nat) : parseDigits (natDec n) = n := by
  by_cases h : n = 0
  · subst h; decide
  · rw [natDec, if_neg h]; exact parseDigits_natDecAux n n (Nat.le_refl n)

theorem natDecAux_digits : ∀ (fuel n : Nat), ∀ c ∈ natDecAux fuel n [], c.isDigit = true := by
  intro fuel
  induction fuel with
  | zero =>
    intro n c hc
    match n with
    | 0 => simp [natDecAux] at hc
    | n + 1 => simp [natDecAux] at hc
  | succ f ih =>
    intro n c hc
    match n with
    | 0 => simp [natDecAux] at hc
    | n + 1 =>
      rw [natDecAux, natDecAux_append] at hc
      rcases List.mem_append.mp hc with h | h
      · exact ih _ c h
      · rcases List.mem_singleton.mp h with rfl
        exact isDigit_digitChar (Nat.mod_lt _ (by decide))

theorem natDec_digits (n : Nat) : ∀ c ∈ natDec n, c.isDigit = true := by
  by_cases h : n = 0
  · subst h; decide
  · rw [natDec, if_neg h]; exact natDecAux_digits n n

theorem natDec_ne_nil (n : Nat) : natDec n ≠ [] := by
  by_cases h : n = 0
  · subst h; decide
  · rw [natDec, if_neg h]
    match n, h with
    | n + 1, _ =>
      rw [natDecAux, natDecAux_append]
      simp

theorem natDec_isEmpty (n : Nat) : (natDec n).isEmpty = false := by
  cases h : natDec n with
  | nil => exact absurd h (natDec_ne_nil n)
  | cons x xs => rfl

theorem takeWhile_digits_append (n : Nat) (l : List Char) :
    (natDec n ++ l).takeWhile Char.isDigit = natDec n ++ l.takeWhile Char.isDigit :=
  List.takeWhile_append_of_pos (natDec_digits n)

theorem dropWhile_digits_append (n : Nat) (l : List Char) :
    (natDec n ++ l).dropWhile Char.isDigit = l.dropWhile Char.isDigit :=
  List.dropWhile_append_of_pos (natDec_digits n)

theorem takeWhile_nondigit_head (l : List Char) (h : ∀ x, l.head? = some x → x.isDigit = false) :
    l.takeWhile Char.isDigit = [] := by
  cases l with
  | nil => rfl
  | cons x xs => exact List.takeWhile_cons_of_neg (by simp [h x rfl])

theorem dropWhile_nondigit_head (l : List Char) (h : ∀ x, l.head? = some x → x.isDigit = false) :
    l.dropWhile Char.isDigit = l := by
  cases l with
  | nil => rfl
  | cons x xs => exact List.dropWhile_cons_of_neg (by simp [h x rfl])

/-- Round trip: a tag built as `v` + digits + `.` + digits + `.` + digits +
a suffix not starting with a digit is parsed back into its components. -/
theorem parseSemverPrefix_mk (a b c : Nat) (suffix : List Char)
    (hsuf : ∀ x, suffix.head? = some x → x.isDigit = false) :
    parseSemverPrefix ('v' :: (natDec a ++ '.' :: (natDec b ++ '.' :: (natDec c ++ suffix))))
      = some (a, b, c, suffix) := by
  have hsx := takeWhile_nondigit_head suffix hsuf
  have hsd := dropWhile_nondigit_head suffix hsuf
  simp [parseSemverPrefix, takeWhile_digits_append, dropWhile_digits_append,
    natDec_isEmpty, hsx, hsd, parseDigits_natDec]

/-! ### Character case-mapping lemmas (ASCII) -/

theorem char_toNat_ofNat_valid {n : Nat} (h : n < 55296) : (Char.ofNat n).toNat = n := by
  have hv : n.isValidChar := Or.inl h
  simp only [Char.ofNat, dif_pos hv]
  rfl

theorem toUpper_toNat (c : Char) :
    c.toUpper.toNat = if 97 ≤ c.toNat ∧ c.toNat ≤ 122 then c.toNat - 32 else c.toNat := by
  by_cases h : 97 ≤ c.toNat ∧ c.toNat ≤ 122
  · have h' : c.toNat ≥ 97 ∧ c.toNat ≤ 122 := ⟨h.1, h.2⟩
    simp only [Char.toUpper, if_pos h', if_pos h]
    exact char_toNat_ofNat_valid (by omega)
  · have h' : ¬(c.toNat ≥ 97 ∧ c.toNat ≤ 122) := fun hc => h ⟨hc.1, hc.2⟩
    simp only [Char.toUpper, if_neg h', if_neg h]

theorem toLower_toNat (c : Char) :
    c.toLower.toNat = if 65 ≤ c.toNat ∧ c.toNat ≤ 90 then c.toNat + 32 else c.toNat := by
  by_cases h : 65 ≤ c.toNat ∧ c.toNat ≤ 90
  · have h' : c.toNat ≥ 65 ∧ c.toNat ≤ 90 := ⟨h.1, h.2⟩
    simp only [Char.toLower, if_pos h', if_pos h]
    exact char_toNat_ofNat_valid (by omega)
  · have h' : ¬(c.toNat ≥ 65 ∧ c.toNat ≤ 90) := fun hc => h ⟨hc.1, hc.2⟩
    simp only [Char.toLower, if_neg h', if_neg h]

theorem toUpper_eq_self {c : Char} (h : ¬(97 ≤ c.toNat ∧ c.toNat ≤ 122)) : c.toUpper = c := by
  have h' : ¬(c.toNat ≥ 97 ∧ c.toNat ≤ 122) := fun hc => h ⟨hc.1, hc.2⟩
  show (if c.toNat ≥ 97 ∧ c.toNat ≤ 122 then Char.ofNat (c.toNat - 32) else c) = c
  rw [if_neg h']

theorem toLower_eq_self {c : Char} (h : ¬(65 ≤ c.toNat ∧ c.toNat ≤ 90)) : c.toLower = c := by
  have h' : ¬(c.toNat ≥ 65 ∧ c.toNat ≤ 90) := fun hc => h ⟨hc.1, hc.2⟩
  show (if c.toNat ≥ 65 ∧ c.toNat ≤ 90 then Char.ofNat (c.toNat + 32) else c) = c
  rw [if_neg h']

theorem toUpper_toUpper (c : Char) : c.toUpper.toUpper = c.toUpper := by
  by_cases h : 97 ≤ c.toNat ∧ c.toNat ≤ 122
  · apply toUpper_eq_self
    rw [toUpper_toNat, if_pos h]
    omega
  · rw [toUpper_eq_self h]
    exact toUpper_eq_self h

theorem toLower_toLower (c : Char) : c.toLower.toLower = c.toLower := by
  by_cases h : 65 ≤ c.toNat ∧ c.toNat ≤ 90
  · apply toLower_eq_self
    rw [toLower_toNat, if_pos h]
    omega
  · rw [toLower_eq_self h]
    exact toLower_eq_self h

theorem isTagChar_iff (c : Char) :
    isTagChar c = true ↔
      (65 ≤ c.toNat ∧ c.toNat ≤ 90) ∨ (97 ≤ c.toNat ∧ c.toNat ≤ 122) ∨ c.toNat = 47 := by
  simp [isTagChar, or_assoc]

theorem isTagChar_toUpper {c : Char} (h : isTagChar c = true) : isTagChar c.toUpper = true := by
  rw [isTagChar_iff] at h ⊢
  rw [toUpper_toNat]
  split <;> omega

theorem isTagChar_toLower {c : Char} (h : isTagChar c = true) : isTagChar c.toLower = true := by
  rw [isTagChar_iff] at h ⊢
  rw [toLower_toNat]
  split <;> omega

theorem isTagChar_not_space {c : Char} (h : isTagChar c = true) : jsIsSpace c = false := by
  rw [isTagChar_iff] at h
  cases hs : jsIsSpace c
  · rfl
  · exfalso
    simp only [jsIsSpace, Bool.or_eq_true, decide_eq_true_eq, Bool.and_eq_true] at hs
    omega

theorem isTagChar_ne_rbracket {c : Char} (h : isTagChar c = true) : c ≠ ']' := by
  intro he; rw [he] at h; revert h; decide

theorem isTagChar_ne_comma {c : Char} (h : isTagChar c = true) : c ≠ ',' := by
  intro he; rw [he] at h; revert h; decide

theorem isTagChar_ne_colon {c : Char} (h : isTagChar c = true) : c ≠ ':' := by
  intro he; rw [he] at h; revert h; decide

/-! ### Generic scanning lemmas -/

theorem dropWhile_eq_self_of_false {α : Type} {p : α → Bool} :
    ∀ l : List α, (∀ c ∈ l, p c = false) → l.dropWhile p = l := by
  intro l h
  cases l with
  | nil => rfl
  | cons x xs =>
    exact List.dropWhile_cons_of_neg (by simp [h x (List.mem_cons_self x xs)])

theorem head_dropWhile_false {α : Type} (p : α → Bool) :
    ∀ (l : List α) (x : α), (l.dropWhile p).head? = some x → p x = false := by
  intro l
  induction l with
  | nil => intro x h; simp at h
  | cons c cs ih =>
    intro x h
    by_cases hc : p c
    · rw [List.dropWhile_cons_of_pos hc] at h
      exact ih x h
    · rw [List.dropWhile_cons_of_neg hc] at h
      simp only [List.head?_cons, Option.some.injEq] at h
      subst h
      exact (Bool.not_eq_true _).mp hc

theorem trimJS_eq_self {l : List Char} (h : ∀ c ∈ l, jsIsSpace c = false) : trimJS l = l := by
  unfold trimJS
  rw [dropWhile_eq_self_of_false l h,
    dropWhile_eq_self_of_false l.reverse (by intro c hc; exact h c (List.mem_reverse.mp hc)),
    List.reverse_reverse]

theorem capitalizeJS_tagChars {l : List Char} (h : ∀ c ∈ l, isTagChar c = true) :
    ∀ c ∈ capitalizeJS l, isTagChar c = true := by
  cases l with
  | nil => simp [capitalizeJS]
  | cons x xs =>
    intro c hc
    simp only [capitalizeJS, List.mem_cons] at hc
    rcases hc with rfl | hc
    · exact isTagChar_toUpper (h x (List.mem_cons_self x xs))
    · rcases List.mem_map.mp hc with ⟨a, ha, rfl⟩
      exact isTagChar_toLower (h a (List.mem_cons_of_mem x ha))

theorem capitalizeJS_idem {l : List Char} (h : ∀ c ∈ l, jsIsSpace c = false) :
    capitalizeJS (trimJS (capitalizeJS l)) = capitalizeJS l := by
  cases l with
  | nil => simp [capitalizeJS, trimJS]
  | cons x xs =>
    have hx : jsIsSpace x.toUpper = false := by
      have hxs := h x (List.mem_cons_self x xs)
      cases hs : jsIsSpace x.toUpper
      · rfl
      · exfalso
        simp only [jsIsSpace, Bool.or_eq_true, decide_eq_true_eq, Bool.and_eq_true] at hs
        rw [toUpper_toNat] at hs
        split at hs
        · omega
        · have hxx : jsIsSpace x = true := by
            simp only [jsIsSpace, Bool.or_eq_true, decide_eq_true_eq, Bool.and_eq_true]
            exact hs
          rw [hxs] at hxx
          exact Bool.false_ne_true hxx
    have htl : ∀ c ∈ xs.map Char.toLower, jsIsSpace c = false := by
      intro c hc
      rcases List.mem_map.mp hc with ⟨a, ha, rfl⟩
      have has := h a (List.mem_cons_of_mem x ha)
      cases hs : jsIsSpace a.toLower
      · rfl
      · exfalso
        simp only [jsIsSpace, Bool.or_eq_true, decide_eq_true_eq, Bool.and_eq_true] at hs
        rw [toLower_toNat] at hs
        split at hs
        · omega
        · have haa : jsIsSpace a = true := by
            simp only [jsIsSpace, Bool.or_eq_true, decide_eq_true_eq, Bool.and_eq_true]
            exact hs
          rw [has] at haa
          exact Bool.false_ne_true haa
    rw [show capitalizeJS (x :: xs) = x.toUpper :: xs.map Char.toLower from rfl]
    rw [trimJS_eq_self (by
      intro c hc
      rcases List.mem_cons.mp hc with rfl | hc
      · exact hx
      · exact htl c hc)]
    simp only [capitalizeJS, toUpper_toUpper, List.map_map]
    congr 1
    apply List.map_congr_left
    intro a _
    exact toLower_toLower a

theorem capitalizeJS_ne_nil {l : List Char} (h : l ≠ []) : capitalizeJS l ≠ [] := by
  cases l with
  | nil => exact absurd rfl h
  | cons x xs => simp [capitalizeJS]

theorem isEmpty_eq_false_of_ne_nil {α : Type} {l : List α} (h : l ≠ []) : l.isEmpty = false := by
  cases l with
  | nil => exact absurd rfl h
  | cons a l => rfl

theorem splitOnCommaAux_no_comma : ∀ (l acc : List Char), (∀ c ∈ l, c ≠ ',') →
    splitOnCommaAux l acc = [acc.reverse ++ l] := by
  intro l
  induction l with
  | nil => intro acc _; simp [splitOnCommaAux]
  | cons c cs ih =>
    intro acc h
    rw [splitOnCommaAux, if_neg (h c (List.mem_cons_self c cs)),
      ih (c :: acc) (fun d hd => h d (List.mem_cons_of_mem c hd))]
    simp

theorem splitOnComma_no_comma {l : List Char} (h : ∀ c ∈ l, c ≠ ',') :
    splitOnComma l = [l] := by
  unfold splitOnComma
  rw [splitOnCommaAux_no_comma l [] h]
  simp

theorem splitOnCommaAux_shape : ∀ (l acc : List Char), ∃ ps,
    splitOnCommaAux l acc = (acc.reverse ++ l.takeWhile (fun c => c ≠ ',')) :: ps := by
  intro l
  induction l with
  | nil => intro acc; exact ⟨[], by simp [splitOnCommaAux]⟩
  | cons c cs ih =>
    intro acc
    by_cases hc : c = ','
    · subst hc
      refine ⟨splitOnCommaAux cs [], ?_⟩
      rw [splitOnCommaAux, if_pos rfl, List.takeWhile_cons_of_neg (by simp)]
      simp
    · rcases ih (c :: acc) with ⟨ps, hps⟩
      refine ⟨ps, ?_⟩
      rw [splitOnCommaAux, if_neg hc, hps, List.takeWhile_cons_of_pos (by simp [hc])]
      simp

theorem splitOnComma_shape (l : List Char) :
    ∃ ps, splitOnComma l = l.takeWhile (fun c => c ≠ ',') :: ps := by
  rcases splitOnCommaAux_shape l [] with ⟨ps, h⟩
  exact ⟨ps, by simpa [splitOnComma] using h⟩

theorem eatSep_nil_eq {l : List Char} (h : l.dropWhile jsIsSpace = []) : eatSep l = [] := by
  unfold eatSep; rw [h]

theorem eatSep_cons_eq {l : List Char} {c : Char} {r : List Char}
    (h : l.dropWhile jsIsSpace = c :: r) :
    eatSep l = if c = ':' then r.dropWhile jsIsSpace else c :: r := by
  unfold eatSep; rw [h]

theorem eatSep_head_not_space (l : List Char) :
    ∀ x, (eatSep l).head? = some x → jsIsSpace x = false := by
  intro x h
  cases hd : l.dropWhile jsIsSpace with
  | nil => rw [eatSep_nil_eq hd] at h; simp at h
  | cons c r =>
    rw [eatSep_cons_eq hd] at h
    by_cases hc : c = ':'
    · rw [if_pos hc] at h
      exact head_dropWhile_false jsIsSpace r x h
    · rw [if_neg hc] at h
      simp only [List.head?_cons, Option.some.injEq] at h
      rw [← h]
      exact head_dropWhile_false jsIsSpace l c (by rw [hd]; rfl)

theorem matchAlt2Sep_eq (l1 : List Char) :
    matchAlt2Sep l1 =
      if (l1.takeWhile (fun c => !jsIsSpace c && c ≠ ':')).isEmpty then none
      else some (l1.takeWhile (fun c => !jsIsSpace c && c ≠ ':'),
        eatSep (l1.dropWhile (fun c => !jsIsSpace c && c ≠ ':'))) := by
  unfold matchAlt2Sep matchAlt2
  by_cases h : (l1.takeWhile (fun c => !jsIsSpace c && c ≠ ':')).isEmpty
  · rw [if_pos h, if_pos h]
  · rw [if_neg h, if_neg h]

theorem matchAlt2Sep_rest {l1 tok rest : List Char}
    (h : matchAlt2Sep l1 = some (tok, rest)) : ∃ r, rest = eatSep r := by
  rw [matchAlt2Sep_eq] at h
  by_cases he : (l1.takeWhile (fun c => !jsIsSpace c && c ≠ ':')).isEmpty
  · rw [if_pos he] at h
    exact absurd h (by simp)
  · rw [if_neg he] at h
    simp only [Option.some.injEq, Prod.mk.injEq] at h
    exact ⟨_, h.2.symm⟩

theorem matchPrefixToken_nil_eq {l : List Char} (h : l.dropWhile jsIsSpace = []) :
    matchPrefixToken l = none := by
  unfold matchPrefixToken; rw [h]

theorem matchPrefixToken_cons_eq {l : List Char} {c : Char} {t : List Char}
    (h : l.dropWhile jsIsSpace = c :: t) :
    matchPrefixToken l =
      if c = '[' ∧ (t.dropWhile (fun x => x ≠ ']')).head? = some ']'
          ∧ ¬(t.takeWhile (fun x => x ≠ ']')).isEmpty then
        some (t.takeWhile (fun x => x ≠ ']'), eatSep ((t.dropWhile (fun x => x ≠ ']')).tail))
      else matchAlt2Sep (c :: t) := by
  unfold matchPrefixToken; rw [h]

theorem matchPrefixToken_rest_eatSep {l tok rest : List Char}
    (h : matchPrefixToken l = some (tok, rest)) : ∃ r, rest = eatSep r := by
  cases hd : l.dropWhile jsIsSpace with
  | nil =>
    rw [matchPrefixToken_nil_eq hd] at h
    exact absurd h (by simp)
  | cons c t =>
    rw [matchPrefixToken_cons_eq hd] at h
    by_cases hcond : c = '[' ∧ (t.dropWhile (fun x => x ≠ ']')).head? = some ']'
        ∧ ¬(t.takeWhile (fun x => x ≠ ']')).isEmpty
    · rw [if_pos hcond] at h
      simp only [Option.some.injEq, Prod.mk.injEq] at h
      exact ⟨_, h.2.symm⟩
    · rw [if_neg hcond] at h
      exact matchAlt2Sep_rest h

theorem matchPrefixToken_rest_not_space {l tok rest : List Char}
    (h : matchPrefixToken l = some (tok, rest)) :
    ∀ x, rest.head? = some x → jsIsSpace x = false := by
  rcases matchPrefixToken_rest_eatSep h with ⟨r, rfl⟩
  exact eatSep_head_not_space r

theorem matchPrefixToken_none {l : List Char}
    (h : l.dropWhile jsIsSpace = [] ∨ (l.dropWhile jsIsSpace).head? = some ':') :
    matchPrefixToken l = none := by
  rcases h with h | h
  · exact matchPrefixToken_nil_eq h
  · cases hd : l.dropWhile jsIsSpace with
    | nil => exact matchPrefixToken_nil_eq hd
    | cons c t =>
      rw [hd] at h
      simp only [List.head?_cons, Option.some.injEq] at h
      subst h
      rw [matchPrefixToken_cons_eq hd,
        if_neg (by intro hc; exact absurd hc.1 (by decide)), matchAlt2Sep_eq,
        List.takeWhile_cons_of_neg (by decide)]
      simp

theorem normalize_eq_of_none {t : String} (h : matchPrefixToken t.toList = none) :
    normalizeTitlePrefixes t = t := by
  unfold normalizeTitlePrefixes
  rw [h]

theorem joinSpace_cons (w : List Char) (ws : List (List Char)) :
    joinSpace (w :: ws) = w ++ (match ws with | [] => [] | _ :: _ => ' ' :: joinSpace ws) := by
  cases ws <;> simp [joinSpace]

/-! ## C3 — idempotence of the title normalizer -/

/-- C3 counterexample: normalizing `"[]"` yields `"[[]] "`, and normalizing
that again yields `"[[] ] "`, so normalization is not idempotent. -/
theorem normalize_not_idempotent :
    normalizeTitlePrefixes "[]" = "[[]] " ∧
    normalizeTitlePrefixes (normalizeTitlePrefixes "[]") = "[[] ] " ∧
    normalizeTitlePrefixes (normalizeTitlePrefixes "[]") ≠ normalizeTitlePrefixes "[]" := by
  decide

/-- C3 (amended): normalization is idempotent for every title whose detected
first comma-separated prefix part trims to a nonempty string of ASCII
letters and slashes, and whose remainder after the prefix match does not
begin with a colon. -/
theorem normalize_idempotent_on_clean (t : String) (tok rest : List Char)
    (hm : matchPrefixToken t.toList = some (tok, rest))
    (hne : trimJS (tok.takeWhile (fun c => c ≠ ',')) ≠ [])
    (htag : ∀ c ∈ trimJS (tok.takeWhile (fun c => c ≠ ',')), isTagChar c = true)
    (hrest : rest.head? ≠ some ':') :
    normalizeTitlePrefixes (normalizeTitlePrefixes t) = normalizeTitlePrefixes t := by
  obtain ⟨ps, hsplit⟩ := splitOnComma_shape tok
  have hp1space : ∀ c ∈ trimJS (tok.takeWhile (fun c => c ≠ ',')), jsIsSpace c = false :=
    fun c hc => isTagChar_not_space (htag c hc)
  have hAne : capitalizeJS (trimJS (tok.takeWhile (fun c => c ≠ ','))) ≠ [] :=
    capitalizeJS_ne_nil hne
  have hAtag : ∀ c ∈ capitalizeJS (trimJS (tok.takeWhile (fun c => c ≠ ','))),
      isTagChar c = true := capitalizeJS_tagChars htag
  have hAnospace : ∀ c ∈ capitalizeJS (trimJS (tok.takeWhile (fun c => c ≠ ','))),
      jsIsSpace c = false := fun c hc => isTagChar_not_space (hAtag c hc)
  have hAnrb : ∀ c ∈ capitalizeJS (trimJS (tok.takeWhile (fun c => c ≠ ','))),
      c ≠ ']' := fun c hc => isTagChar_ne_rbracket (hAtag c hc)
  have hAncm : ∀ c ∈ capitalizeJS (trimJS (tok.takeWhile (fun c => c ≠ ','))),
      c ≠ ',' := fun c hc => isTagChar_ne_comma (hAtag c hc)
  -- the once-normalized title has the shape  [A]␣Z  with a well-behaved Z
  have hout : ∃ Z : List Char,
      joinSpace (((tok.takeWhile (fun c => c ≠ ',')) :: ps).map wrapCap) ++ ' ' :: rest
        = '[' :: (capitalizeJS (trimJS (tok.takeWhile (fun c => c ≠ ','))) ++ ']' :: ' ' :: Z)
      ∧ (∀ x, Z.head? = some x → jsIsSpace x = false ∧ x ≠ ':') := by
    cases ps with
    | nil =>
      refine ⟨rest, ?_, ?_⟩
      · simp [joinSpace, wrapCap, List.append_assoc]
      · intro x hx
        refine ⟨matchPrefixToken_rest_not_space hm x hx, ?_⟩
        intro he
        rw [he] at hx
        exact hrest hx
    | cons q qs =>
      refine ⟨joinSpace ((q :: qs).map wrapCap) ++ ' ' :: rest, ?_, ?_⟩
      · rw [List.map_cons, joinSpace_cons]
        simp [wrapCap, List.append_assoc]
      · intro x hx
        rw [List.map_cons, joinSpace_cons] at hx
        simp only [wrapCap, List.cons_append, List.head?_cons, Option.some.injEq] at hx
        rw [← hx]
        exact ⟨by decide, by decide⟩
  obtain ⟨Z, hZeq, hZhead⟩ := hout
  have h0 : normalizeTitlePrefixes t
      = String.mk (joinSpace ((splitOnComma tok).map wrapCap) ++ ' ' :: rest) := by
    unfold normalizeTitlePrefixes
    rw [hm]
  have h1 : normalizeTitlePrefixes t
      = String.mk ('[' :: (capitalizeJS (trimJS (tok.takeWhile (fun c => c ≠ ',')))
          ++ ']' :: ' ' :: Z)) := by
    rw [h0, hsplit, hZeq]
  rw [h1]
  -- second pass: the scanner finds exactly the first bracketed tag again
  have htw : (capitalizeJS (trimJS (tok.takeWhile (fun c => c ≠ ',')))
        ++ ']' :: ' ' :: Z).takeWhile (fun x => x ≠ ']')
      = capitalizeJS (trimJS (tok.takeWhile (fun c => c ≠ ','))) := by
    rw [List.takeWhile_append_of_pos (by intro a ha; simp [hAnrb a ha]),
      List.takeWhile_cons_of_neg (by simp)]
    simp
  have hdw : (capitalizeJS (trimJS (tok.takeWhile (fun c => c ≠ ',')))
        ++ ']' :: ' ' :: Z).dropWhile (fun x => x ≠ ']')
      = ']' :: ' ' :: Z := by
    rw [List.dropWhile_append_of_pos (by intro a ha; simp [hAnrb a ha]),
      List.dropWhile_cons_of_neg (by simp)]
  have hdropSpace : ('[' :: (capitalizeJS (trimJS (tok.takeWhile (fun c => c ≠ ',')))
        ++ ']' :: ' ' :: Z)).dropWhile jsIsSpace
      = '[' :: (capitalizeJS (trimJS (tok.takeWhile (fun c => c ≠ ','))) ++ ']' :: ' ' :: Z) :=
    List.dropWhile_cons_of_neg (by decide)
  have heat : eatSep (' ' :: Z) = Z := by
    cases hz : Z with
    | nil => exact eatSep_nil_eq (by decide)
    | cons z0 Z' =>
      have hz0c := (hZhead z0 (by rw [hz]; rfl)).2
      have hz0s := (hZhead z0 (by rw [hz]; rfl)).1
      rw [eatSep_cons_eq (by
          rw [List.dropWhile_cons_of_pos (by decide),
            List.dropWhile_cons_of_neg (by simp [hz0s])]),
        if_neg hz0c]
  have hm2 : matchPrefixToken ('[' :: (capitalizeJS (trimJS (tok.takeWhile (fun c => c ≠ ',')))
        ++ ']' :: ' ' :: Z))
      = some (capitalizeJS (trimJS (tok.takeWhile (fun c => c ≠ ','))), Z) := by
    rw [matchPrefixToken_cons_eq hdropSpace,
      if_pos ⟨rfl, by rw [hdw]; rfl, by rw [htw, isEmpty_eq_false_of_ne_nil hAne]; simp⟩,
      htw, hdw]
    have htail : ((']' :: ' ' :: Z) : List Char).tail = ' ' :: Z := rfl
    rw [htail, heat]
  have hwc : wrapCap (capitalizeJS (trimJS (tok.takeWhile (fun c => c ≠ ','))))
      = '[' :: (capitalizeJS (trimJS (tok.takeWhile (fun c => c ≠ ','))) ++ [']']) := by
    unfold wrapCap
    rw [capitalizeJS_idem hp1space]
  unfold normalizeTitlePrefixes
  rw [show (String.mk ('[' :: (capitalizeJS (trimJS (tok.takeWhile (fun c => c ≠ ',')))
        ++ ']' :: ' ' :: Z))).toList
      = '[' :: (capitalizeJS (trimJS (tok.takeWhile (fun c => c ≠ ','))) ++ ']' :: ' ' :: Z)
    from rfl, hm2]
  show String.mk (joinSpace (((splitOnComma (capitalizeJS (trimJS
      (tok.takeWhile (fun c => c ≠ ','))))).map wrapCap)) ++ ' ' :: Z) = _
  rw [splitOnComma_no_comma hAncm]
  show String.mk (joinSpace [wrapCap (capitalizeJS (trimJS
      (tok.takeWhile (fun c => c ≠ ','))))] ++ ' ' :: Z) = _
  rw [show joinSpace [wrapCap (capitalizeJS (trimJS (tok.takeWhile (fun c => c ≠ ','))))]
      = wrapCap (capitalizeJS (trimJS (tok.takeWhile (fun c => c ≠ ',')))) from rfl, hwc]
  simp [List.append_assoc]

/-- Witness for the amended C3 at `"feat: add search"`. -/
theorem normalize_idempotent_on_clean_witness :
    normalizeTitlePrefixes (normalizeTitlePrefixes "feat: add search")
      = normalizeTitlePrefixes "feat: add search" :=
  normalize_idempotent_on_clean "feat: add search"
    ['f', 'e', 'a', 't'] ['a', 'd', 'd', ' ', 's', 'e', 'a', 'r', 'c', 'h']
    (by decide) (by decide) (by decide) (by decide)

/-! ### Generic list and lookup lemmas -/

theorem lookup_mem_values {α β : Type} [BEq α] (k : α) (v : β) :
    ∀ l : List (α × β), List.lookup k l = some v → v ∈ l.map Prod.snd := by
  intro l
  induction l with
  | nil => intro h; simp [List.lookup] at h
  | cons x xs ih =>
    intro h
    rw [List.lookup] at h
    cases hk : k == x.1
    · rw [hk] at h
      simp only [List.map_cons, List.mem_cons]
      exact Or.inr (ih h)
    · rw [hk] at h
      simp only [List.map_cons, List.mem_cons]
      injection h with h
      exact Or.inl h.symm

/-- Every value of `PREFIX_MAP` is a name from `sectionOrder`. -/
theorem prefixMap_values_in_sections : ∀ v ∈ PREFIX_MAP.map Prod.snd, v ∈ sectionOrder := by
  decide

/-! ## C1 — totality of the title classifier -/

/-- `classifyTitle` always lands in the fixed section enumeration. -/
theorem classifyTitle_mem_sectionOrder (t : String) : classifyTitle t ∈ sectionOrder := by
  have hmem : ∀ o : Option String,
      (match o with
       | none => "Other"
       | some raw =>
         (List.lookup (String.mk (raw.toList.map Char.toLower)) PREFIX_MAP).getD "Other")
        ∈ sectionOrder := by
    intro o
    match o with
    | none => decide
    | some raw =>
      show (List.lookup (String.mk (raw.toList.map Char.toLower)) PREFIX_MAP).getD "Other"
          ∈ sectionOrder
      cases hl : List.lookup (String.mk (raw.toList.map Char.toLower)) PREFIX_MAP with
      | none => decide
      | some v =>
        exact prefixMap_values_in_sections v (lookup_mem_values _ v _ hl)
  exact hmem (rawPrefixOf t)

/-- C1: for every title, `classifyTitle` returns exactly one member of the
fixed section enumeration; a title with no detectable prefix, or with a
detected prefix outside the known vocabulary, is classified `"Other"`. -/
theorem classifyTitle_total (t : String) :
    classifyTitle t ∈ sectionOrder ∧
    (rawPrefixOf t = none → classifyTitle t = "Other") ∧
    (∀ p, rawPrefixOf t = some p →
      List.lookup (String.mk (p.toList.map Char.toLower)) PREFIX_MAP = none →
      classifyTitle t = "Other") := by
  refine ⟨classifyTitle_mem_sectionOrder t, ?_, ?_⟩
  · intro h
    unfold classifyTitle
    rw [h]
  · intro p hp hl
    unfold classifyTitle
    rw [hp]
    show (List.lookup (String.mk (p.toList.map Char.toLower)) PREFIX_MAP).getD "Other" = "Other"
    rw [hl]
    rfl

/-- Witness for C1 at a concrete unknown-prefix title. -/
theorem classifyTitle_total_witness :
    classifyTitle "zzz: whatever" = "Other" ∧ classifyTitle "[Feat] x" ∈ sectionOrder :=
  ⟨(classifyTitle_total "zzz: whatever").2.2 "zzz" (by decide) (by decide),
   (classifyTitle_total "[Feat] x").1⟩

/-! ## C2 — version advancement -/

/-- C2 counterexample: `"v1.2.3-beta"` fails the strict `vMAJOR.MINOR.PATCH`
pattern, yet `nextVersion` does not return `"v0.1.0"` for it — the code
matches the pattern only as a prefix of the tag. -/
theorem nextVersion_strict_counterexample :
    strictSemverTag "v1.2.3-beta" = false ∧
    nextVersion (some "v1.2.3-beta") = "v1.2.4" ∧
    nextVersion (some "v1.2.3-beta") ≠ "v0.1.0" := by decide

/-- C2 (amended): `nextVersion` increments exactly the patch component when
the tag starts with `vMAJOR.MINOR.PATCH` (any trailing characters are
ignored), and returns `"v0.1.0"` when the tag is absent or has no such
prefix; in particular the three documented examples hold. -/
theorem nextVersion_spec :
    nextVersion none = "v0.1.0" ∧
    nextVersion (some "v1.2.3") = "v1.2.4" ∧
    nextVersion (some "not-a-tag") = "v0.1.0" ∧
    (∀ s : String, parseSemverPrefix s.toList = none → nextVersion (some s) = "v0.1.0") ∧
    (∀ a b c : Nat, ∀ suffix : List Char,
      (∀ x, suffix.head? = some x → x.isDigit = false) →
      nextVersion (some (String.mk
          ('v' :: (natDec a ++ '.' :: (natDec b ++ '.' :: (natDec c ++ suffix))))))
        = String.mk ('v' :: (natDec a ++ '.' :: (natDec b ++ '.' :: natDec (c + 1))))) := by
  refine ⟨by decide, by decide, by decide, ?_, ?_⟩
  · intro s h
    simp only [nextVersion, h]
  · intro a b c suffix hsuf
    have hp := parseSemverPrefix_mk a b c suffix hsuf
    simp only [nextVersion, String.toList, hp]
    simp [List.append_assoc]

/-- Witness for C2 at `v0.4.17-rc1`. -/
theorem nextVersion_spec_witness :
    nextVersion (some (String.mk
        ('v' :: (natDec 0 ++ '.' :: (natDec 4 ++ '.' :: (natDec 17 ++ ['-', 'r', 'c', '1']))))))
      = String.mk ('v' :: (natDec 0 ++ '.' :: (natDec 4 ++ '.' :: natDec 18))) ∧
    nextVersion (some "vNext") = "v0.1.0" :=
  ⟨nextVersion_spec.2.2.2.2 0 4 17 ['-', 'r', 'c', '1']
      (by intro x hx; simp at hx; subst hx; decide),
   nextVersion_spec.2.2.2.1 "vNext" (by decide)⟩

/-! ## C8 — titles with no recognizable prefix -/

/-- C8 counterexample: `"hello world"` carries no recognizable prefix (no
bracketed tag, and `hello` is not a known vocabulary word), yet the
normalizer rewrites it to `"[Hello] world"`. -/
theorem normalizeUnknown_counterexample :
    hasRecognizablePrefix "hello world" = false ∧
    normalizeTitlePrefixes "hello world" = "[Hello] world" ∧
    normalizeTitlePrefixes "hello world" ≠ "hello world" := by decide

/-- C8 (amended): the normalizer rewrites any leading token — bracketed or
bare, known vocabulary or not; only a title in which the prefix regex finds
no token at all (one that is empty, all whitespace, or whose first
non-space character is a colon) is returned unchanged. -/
theorem normalize_unchanged_no_token (t : String)
    (h : t.toList.dropWhile jsIsSpace = []
      ∨ (t.toList.dropWhile jsIsSpace).head? = some ':') :
    normalizeTitlePrefixes t = t :=
  normalize_eq_of_none (matchPrefixToken_none h)

/-- Witness for the amended C8. -/
theorem normalize_unchanged_no_token_witness :
    normalizeTitlePrefixes ": odd title" = ": odd title" ∧
    normalizeTitlePrefixes "   " = "   " :=
  ⟨normalize_unchanged_no_token ": odd title" (Or.inr (by decide)),
   normalize_unchanged_no_token "   " (Or.inl (by decide))⟩

/-! ## C7 — section ordering in the rendered output -/

theorem pushEntry_keys (g : List (String × List Entry)) (name : String) (e : Entry) :
    (pushEntry g name e).map Prod.fst = g.map Prod.fst := by
  unfold pushEntry
  rw [List.map_map]
  apply List.map_congr_left
  intro s _
  by_cases h : s.1 = name
  · simp [h]
  · simp [h]

theorem pushIssues_keys : ∀ (es : List IMapEntry) (g : List (String × List Entry)),
    (pushIssues g es).map Prod.fst = g.map Prod.fst := by
  intro es
  induction es with
  | nil => intro g; rfl
  | cons e es ih =>
    intro g
    rw [pushIssues, ih, pushEntry_keys]

theorem pushStandalones_keys : ∀ (prs : List PRInput) (g : List (String × List Entry)),
    (pushStandalones g prs).map Prod.fst = g.map Prod.fst := by
  intro prs
  induction prs with
  | nil => intro g; rfl
  | cons pr prs ih =>
    intro g
    rw [pushStandalones, ih, pushEntry_keys]

theorem sectionGroups_keys (prs : List PRInput) :
    (sectionGroups prs).map Prod.fst = sectionOrder := by
  unfold sectionGroups
  rw [pushStandalones_keys, pushIssues_keys]
  unfold emptyGroups
  rw [List.map_map,
    show (Prod.fst ∘ fun n : String => (n, ([] : List Entry))) = id from rfl, List.map_id]

/-- C7 counterexample: with an Enhancements item and a New Features item the
output lists Enhancements first, which is not a subsequence of the order the
spec enumerates (Features before Enhancements). -/
theorem sectionOrder_spec_counterexample :
    nonEmptySectionNames c7Input = ["🔧 Enhancements", "✨ New Features"] ∧
    ¬ List.Sublist (nonEmptySectionNames c7Input) specSectionOrder := by decide

/-- C7 (amended): for every input, the non-empty sections appear in the
fixed declaration order of the `sections` object — Tasks, Enhancements,
Bug Fixes, New Features, Refactoring, Documentation, Tests, Chores,
Ideas & Proposals, Other — regardless of the input; the headings are always
a subsequence of `sectionOrder`. -/
theorem sectionOrder_stable (prs : List PRInput) :
    List.Sublist (nonEmptySectionNames prs) sectionOrder := by
  unfold nonEmptySectionNames
  rw [← sectionGroups_keys prs]
  exact List.Sublist.map Prod.fst (List.filter_sublist _)

/-! ### Lemmas about the issue map -/

theorem insertPR_keys_mem {m : List IMapEntry} {p : Nat} {i : Nat × String}
    (h : i.1 ∈ m.map IMapEntry.num) :
    (insertPR m p i).map IMapEntry.num = m.map IMapEntry.num := by
  induction m with
  | nil => simp at h
  | cons e es ih =>
    by_cases he : e.num = i.1
    · rw [insertPR, if_pos he]
      simp
    · rw [insertPR, if_neg he]
      simp only [List.map_cons]
      have h' : i.1 ∈ es.map IMapEntry.num := by
        rcases List.mem_cons.mp h with h | h
        · exact absurd h.symm he
        · exact h
      rw [ih h']

theorem insertPR_keys_not_mem {m : List IMapEntry} {p : Nat} {i : Nat × String}
    (h : i.1 ∉ m.map IMapEntry.num) :
    (insertPR m p i).map IMapEntry.num = m.map IMapEntry.num ++ [i.1] := by
  induction m with
  | nil => simp [insertPR]
  | cons e es ih =>
    have he : e.num ≠ i.1 := by
      intro heq
      exact h (by simp [heq])
    rw [insertPR, if_neg he]
    simp only [List.map_cons, List.cons_append]
    rw [ih (fun hmem => h (List.mem_cons_of_mem _ hmem))]

theorem insertPR_keys_nodup {m : List IMapEntry} {p : Nat} {i : Nat × String}
    (h : (m.map IMapEntry.num).Nodup) : ((insertPR m p i).map IMapEntry.num).Nodup := by
  by_cases hm : i.1 ∈ m.map IMapEntry.num
  · rw [insertPR_keys_mem hm]
    exact h
  · rw [insertPR_keys_not_mem hm]
    simp [List.nodup_append, h, hm]

theorem foldl_insertPR_keys_nodup (p : Nat) :
    ∀ (issues : List (Nat × String)) (m : List IMapEntry),
      (m.map IMapEntry.num).Nodup →
      ((issues.foldl (fun acc i => insertPR acc p i) m).map IMapEntry.num).Nodup := by
  intro issues
  induction issues with
  | nil => intro m h; exact h
  | cons i is ih =>
    intro m h
    exact ih _ (insertPR_keys_nodup h)

theorem buildIssueMapAux_keys_nodup :
    ∀ (prs : List PRInput) (m : List IMapEntry) (lone : List PRInput),
      (m.map IMapEntry.num).Nodup →
      (((buildIssueMapAux m lone prs).1).map IMapEntry.num).Nodup := by
  intro prs
  induction prs with
  | nil => intro m lone h; exact h
  | cons pr rest ih =>
    intro m lone h
    rw [buildIssueMapAux]
    by_cases hl : pr.linked.isEmpty
    · rw [if_pos hl]
      exact ih _ _ h
    · rw [if_neg hl]
      exact ih _ _ (foldl_insertPR_keys_nodup pr.number pr.linked m h)

theorem buildIssueMap_keys_nodup (prs : List PRInput) :
    (((buildIssueMap prs).1).map IMapEntry.num).Nodup :=
  buildIssueMapAux_keys_nodup prs [] [] (by simp)

theorem buildIssueMapAux_snd :
    ∀ (prs : List PRInput) (m : List IMapEntry) (lone : List PRInput),
      (buildIssueMapAux m lone prs).2 = lone ++ prs.filter (fun pr => pr.linked.isEmpty) := by
  intro prs
  induction prs with
  | nil => intro m lone; simp [buildIssueMapAux]
  | cons pr rest ih =>
    intro m lone
    rw [buildIssueMapAux]
    by_cases hl : pr.linked.isEmpty
    · rw [if_pos hl, ih]
      simp [List.filter_cons, hl]
    · rw [if_neg hl, ih]
      simp [List.filter_cons, hl]

theorem buildIssueMap_snd (prs : List PRInput) :
    (buildIssueMap prs).2 = prs.filter (fun pr => pr.linked.isEmpty) := by
  unfold buildIssueMap
  rw [buildIssueMapAux_snd]
  simp

theorem insertPR_prs_src {m : List IMapEntry} {p : Nat} {i : Nat × String} :
    ∀ im ∈ insertPR m p i, ∀ q ∈ im.prs, (∃ im0 ∈ m, q ∈ im0.prs) ∨ q = p := by
  induction m with
  | nil =>
    intro im him q hq
    simp only [insertPR, List.mem_singleton] at him
    subst him
    simp only [List.mem_singleton] at hq
    exact Or.inr hq
  | cons e es ih =>
    intro im him q hq
    by_cases he : e.num = i.1
    · rw [insertPR, if_pos he] at him
      rcases List.mem_cons.mp him with rfl | him
      · rcases List.mem_append.mp hq with hq | hq
        · exact Or.inl ⟨e, List.mem_cons_self e es, hq⟩
        · simp only [List.mem_singleton] at hq
          exact Or.inr hq
      · exact Or.inl ⟨im, List.mem_cons_of_mem e him, hq⟩
    · rw [insertPR, if_neg he] at him
      rcases List.mem_cons.mp him with rfl | him
      · exact Or.inl ⟨im, List.mem_cons_self _ _, hq⟩
      · rcases ih im him q hq with ⟨im0, him0, hq0⟩ | hq0
        · exact Or.inl ⟨im0, List.mem_cons_of_mem e him0, hq0⟩
        · exact Or.inr hq0

theorem foldl_insertPR_prs_src (p : Nat) :
    ∀ (issues : List (Nat × String)) (m : List IMapEntry),
      ∀ im ∈ issues.foldl (fun acc i => insertPR acc p i) m, ∀ q ∈ im.prs,
        (∃ im0 ∈ m, q ∈ im0.prs) ∨ q = p := by
  intro issues
  induction issues with
  | nil => intro m im him q hq; exact Or.inl ⟨im, him, hq⟩
  | cons i is ih =>
    intro m im him q hq
    rcases ih (insertPR m p i) im him q hq with ⟨im0, him0, hq0⟩ | hq0
    · exact insertPR_prs_src im0 him0 q hq0
    · exact Or.inr hq0

theorem buildIssueMapAux_prs_src :
    ∀ (prs : List PRInput) (m : List IMapEntry) (lone : List PRInput),
      ∀ im ∈ (buildIssueMapAux m lone prs).1, ∀ q ∈ im.prs,
        (∃ im0 ∈ m, q ∈ im0.prs)
        ∨ ∃ pr ∈ prs, pr.number = q ∧ ¬pr.linked.isEmpty := by
  intro prs
  induction prs with
  | nil => intro m lone im him q hq; exact Or.inl ⟨im, him, hq⟩
  | cons pr rest ih =>
    intro m lone im him q hq
    rw [buildIssueMapAux] at him
    by_cases hl : pr.linked.isEmpty
    · rw [if_pos hl] at him
      rcases ih m _ im him q hq with h | ⟨pr', hpr', hq'⟩
      · exact Or.inl h
      · exact Or.inr ⟨pr', List.mem_cons_of_mem _ hpr', hq'⟩
    · rw [if_neg hl] at him
      rcases ih _ lone im him q hq with ⟨im0, him0, hq0⟩ | ⟨pr', hpr', hq'⟩
      · rcases foldl_insertPR_prs_src pr.number pr.linked m im0 him0 q hq0 with h' | hq1
        · exact Or.inl h'
        · exact Or.inr ⟨pr, List.mem_cons_self _ _, hq1.symm, hl⟩
      · exact Or.inr ⟨pr', List.mem_cons_of_mem _ hpr', hq'⟩

theorem buildIssueMap_prs_src {prs : List PRInput} :
    ∀ im ∈ (buildIssueMap prs).1, ∀ q ∈ im.prs,
      ∃ pr ∈ prs, pr.number = q ∧ ¬pr.linked.isEmpty := by
  intro im him q hq
  rcases buildIssueMapAux_prs_src prs [] [] im him q hq with ⟨im0, him0, _⟩ | h
  · simp at him0
  · exact h

theorem insertPR_mem_target (m : List IMapEntry) (p : Nat) (i : Nat × String) :
    ∃ im ∈ insertPR m p i, im.num = i.1 ∧ p ∈ im.prs := by
  induction m with
  | nil => exact ⟨⟨i.1, i.2, [p]⟩, by simp [insertPR]⟩
  | cons e es ih =>
    by_cases he : e.num = i.1
    · refine ⟨{ e with prs := e.prs ++ [p] }, ?_, he, by simp⟩
      rw [insertPR, if_pos he]
      exact List.mem_cons_self _ _
    · rcases ih with ⟨im, him, h1, h2⟩
      refine ⟨im, ?_, h1, h2⟩
      rw [insertPR, if_neg he]
      exact List.mem_cons_of_mem _ him

theorem insertPR_mem_mono (p : Nat) (i : Nat × String) {k q : Nat} :
    ∀ m : List IMapEntry, (∃ im ∈ m, im.num = k ∧ q ∈ im.prs) →
      ∃ im ∈ insertPR m p i, im.num = k ∧ q ∈ im.prs := by
  intro m
  induction m with
  | nil =>
    intro h
    rcases h with ⟨im, him, _⟩
    simp at him
  | cons e es ih =>
    intro h
    rcases h with ⟨im, him, h1, h2⟩
    by_cases he : e.num = i.1
    · rw [insertPR, if_pos he]
      rcases List.mem_cons.mp him with rfl | him
      · exact ⟨{ im with prs := im.prs ++ [p] }, List.mem_cons_self _ _, h1,
          List.mem_append.mpr (Or.inl h2)⟩
      · exact ⟨im, List.mem_cons_of_mem _ him, h1, h2⟩
    · rw [insertPR, if_neg he]
      rcases List.mem_cons.mp him with rfl | him
      · exact ⟨im, List.mem_cons_self _ _, h1, h2⟩
      · rcases ih ⟨im, him, h1, h2⟩ with ⟨im', him', h1', h2'⟩
        exact ⟨im', List.mem_cons_of_mem _ him', h1', h2'⟩

theorem foldl_insertPR_mem_mono (p : Nat) {k q : Nat} :
    ∀ (issues : List (Nat × String)) (m : List IMapEntry),
      (∃ im ∈ m, im.num = k ∧ q ∈ im.prs) →
      ∃ im ∈ issues.foldl (fun acc i => insertPR acc p i) m, im.num = k ∧ q ∈ im.prs := by
  intro issues
  induction issues with
  | nil => intro m h; exact h
  | cons i is ih => intro m h; exact ih _ (insertPR_mem_mono p i m h)

theorem foldl_insertPR_mem_target (p : Nat) {i0 : Nat × String} :
    ∀ (issues : List (Nat × String)) (m : List IMapEntry), i0 ∈ issues →
      ∃ im ∈ issues.foldl (fun acc i => insertPR acc p i) m, im.num = i0.1 ∧ p ∈ im.prs := by
  intro issues
  induction issues with
  | nil => intro m h; simp at h
  | cons i is ih =>
    intro m h
    rcases List.mem_cons.mp h with rfl | h
    · exact foldl_insertPR_mem_mono p is _ (insertPR_mem_target m p i0)
    · exact ih _ h

theorem buildIssueMapAux_mem_mono {k q : Nat} :
    ∀ (prs : List PRInput) (m : List IMapEntry) (lone : List PRInput),
      (∃ im ∈ m, im.num = k ∧ q ∈ im.prs) →
      ∃ im ∈ (buildIssueMapAux m lone prs).1, im.num = k ∧ q ∈ im.prs := by
  intro prs
  induction prs with
  | nil => intro m lone h; exact h
  | cons pr rest ih =>
    intro m lone h
    rw [buildIssueMapAux]
    by_cases hl : pr.linked.isEmpty
    · rw [if_pos hl]
      exact ih _ _ h
    · rw [if_neg hl]
      exact ih _ _ (foldl_insertPR_mem_mono pr.number pr.linked m h)

theorem buildIssueMapAux_mem_target {pr : PRInput} {i0 : Nat × String} (hi : i0 ∈ pr.linked) :
    ∀ (prs : List PRInput) (m : List IMapEntry) (lone : List PRInput), pr ∈ prs →
      ∃ im ∈ (buildIssueMapAux m lone prs).1, im.num = i0.1 ∧ pr.number ∈ im.prs := by
  intro prs
  induction prs with
  | nil => intro m lone h; simp at h
  | cons pr' rest ih =>
    intro m lone h
    rw [buildIssueMapAux]
    rcases List.mem_cons.mp h with rfl | h
    · have hl : ¬pr.linked.isEmpty := by
        cases hl0 : pr.linked with
        | nil => rw [hl0] at hi; simp at hi
        | cons a l => simp
      rw [if_neg hl]
      exact buildIssueMapAux_mem_mono rest _ lone
        (foldl_insertPR_mem_target pr.number pr.linked m hi)
    · by_cases hl : pr'.linked.isEmpty
      · rw [if_pos hl]
        exact ih _ _ h
      · rw [if_neg hl]
        exact ih _ _ h

theorem buildIssueMap_mem_target {prs : List PRInput} {pr : PRInput} {i0 : Nat × String}
    (hpr : pr ∈ prs) (hi : i0 ∈ pr.linked) :
    ∃ im ∈ (buildIssueMap prs).1, im.num = i0.1 ∧ pr.number ∈ im.prs :=
  buildIssueMapAux_mem_target hi prs [] [] hpr

/-! ### Lemmas about section groups and entry counts -/

theorem emptyGroups_keys : emptyGroups.map Prod.fst = sectionOrder := by
  unfold emptyGroups
  rw [List.map_map,
    show (Prod.fst ∘ fun n : String => (n, ([] : List Entry))) = id from rfl, List.map_id]

theorem countEntries_cons (s : String × List Entry) (g : List (String × List Entry))
    (P : Entry → Bool) :
    countEntries (s :: g) P = s.2.countP P + countEntries g P := by
  unfold countEntries
  simp

theorem count_sectionOrder_classify (t : String) :
    sectionOrder.count (classifyTitle t) = 1 :=
  List.count_eq_one_of_mem (by decide) (classifyTitle_mem_sectionOrder t)

theorem countEntries_pushEntry (g : List (String × List Entry)) (name : String) (e : Entry)
    (P : Entry → Bool) :
    countEntries (pushEntry g name e) P
      = countEntries g P + (g.map Prod.fst).count name * (if P e then 1 else 0) := by
  induction g with
  | nil => simp [countEntries, pushEntry]
  | cons s g ih =>
    have hL : countEntries (pushEntry (s :: g) name e) P
        = ((if s.1 = name then (s.1, s.2 ++ [e]) else s).2.countP P)
          + countEntries (pushEntry g name e) P := by
      unfold countEntries pushEntry
      simp
    rw [hL, countEntries_cons, ih, List.map_cons, List.count_cons]
    by_cases hs : s.1 = name
    · rw [if_pos hs]
      have hb : (s.1 == name) = true := by simp [hs]
      rw [hb]
      simp only [List.countP_append]
      have hPe : ([e] : List Entry).countP P = if P e then 1 else 0 := by
        simp [List.countP_cons]
      rw [hPe]
      by_cases hP : P e <;> simp [hP] <;> omega
    · rw [if_neg hs]
      have hb : (s.1 == name) = false := by simp [hs]
      rw [hb]
      by_cases hP : P e <;> simp [hP] <;> omega

theorem countEntries_pushIssues (P : Entry → Bool) :
    ∀ (es : List IMapEntry) (g : List (String × List Entry)),
      g.map Prod.fst = sectionOrder →
      countEntries (pushIssues g es) P
        = countEntries g P + (es.map issueEntryOf).countP P := by
  intro es
  induction es with
  | nil => intro g hg; simp [pushIssues]
  | cons e es ih =>
    intro g hg
    rw [pushIssues, ih _ (by rw [pushEntry_keys]; exact hg), countEntries_pushEntry, hg,
      count_sectionOrder_classify, List.map_cons, List.countP_cons]
    by_cases hP : P (issueEntryOf e) <;> simp [hP] <;> omega

theorem countEntries_pushStandalones (P : Entry → Bool) :
    ∀ (lone : List PRInput) (g : List (String × List Entry)),
      g.map Prod.fst = sectionOrder →
      countEntries (pushStandalones g lone) P
        = countEntries g P + (lone.map standaloneEntryOf).countP P := by
  intro lone
  induction lone with
  | nil => intro g hg; simp [pushStandalones]
  | cons pr lone ih =>
    intro g hg
    rw [pushStandalones, ih _ (by rw [pushEntry_keys]; exact hg), countEntries_pushEntry, hg,
      count_sectionOrder_classify, List.map_cons, List.countP_cons]
    by_cases hP : P (standaloneEntryOf pr) <;> simp [hP] <;> omega

theorem countEntries_emptyGroups (P : Entry → Bool) : countEntries emptyGroups P = 0 := by
  unfold countEntries emptyGroups
  induction sectionOrder with
  | nil => rfl
  | cons n ns ih => simpa using ih

theorem countEntries_sectionGroups (prs : List PRInput) (P : Entry → Bool) :
    countEntries (sectionGroups prs) P
      = ((buildIssueMap prs).1.map issueEntryOf).countP P
        + ((buildIssueMap prs).2.map standaloneEntryOf).countP P := by
  unfold sectionGroups
  rw [countEntries_pushStandalones P _ _ (by rw [pushIssues_keys]; exact emptyGroups_keys),
    countEntries_pushIssues P _ _ emptyGroups_keys, countEntries_emptyGroups]
  omega

theorem sections_le_entries (g : List (String × List Entry)) (P : Entry → Bool) :
    g.countP (fun sec => sec.2.any P) ≤ countEntries g P := by
  induction g with
  | nil => simp [countEntries]
  | cons s g ih =>
    rw [List.countP_cons, countEntries_cons]
    by_cases hs : s.2.any P
    · have hpos : 0 < s.2.countP P := by
        rcases List.any_eq_true.mp hs with ⟨x, hx, hPx⟩
        exact List.countP_pos_iff.mpr ⟨x, hx, hPx⟩
      simp only [hs, if_pos]
      omega
    · simp only [hs]
      simp
      omega

theorem sections_pos_of_entries_pos {g : List (String × List Entry)} {P : Entry → Bool}
    (h : 0 < countEntries g P) : 0 < g.countP (fun sec => sec.2.any P) := by
  induction g with
  | nil => simp [countEntries] at h
  | cons s g ih =>
    rw [countEntries_cons] at h
    rw [List.countP_cons]
    by_cases hs : s.2.any P
    · simp [hs]
    · have h0 : s.2.countP P = 0 := by
        rw [List.countP_eq_zero]
        intro a ha hPa
        exact hs (List.any_eq_true.mpr ⟨a, ha, hPa⟩)
      rw [h0] at h
      simp only [Nat.zero_add] at h
      have hg := ih h
      split <;> omega

theorem mem_pushEntry {g : List (String × List Entry)} {name : String} {e : Entry}
    {sec : String × List Entry} {x : Entry}
    (hsec : sec ∈ pushEntry g name e) (hx : x ∈ sec.2) :
    (∃ sec0 ∈ g, x ∈ sec0.2) ∨ x = e := by
  unfold pushEntry at hsec
  rcases List.mem_map.mp hsec with ⟨s0, hs0, heq⟩
  by_cases hs : s0.1 = name
  · rw [if_pos hs] at heq
    rw [← heq] at hx
    rcases List.mem_append.mp hx with hx | hx
    · exact Or.inl ⟨s0, hs0, hx⟩
    · simp only [List.mem_singleton] at hx
      exact Or.inr hx
  · rw [if_neg hs] at heq
    rw [← heq] at hx
    exact Or.inl ⟨s0, hs0, hx⟩

theorem mem_pushIssues {x : Entry} :
    ∀ (es : List IMapEntry) (g : List (String × List Entry)) (sec : String × List Entry),
      sec ∈ pushIssues g es → x ∈ sec.2 →
      (∃ sec0 ∈ g, x ∈ sec0.2) ∨ ∃ im ∈ es, x = issueEntryOf im := by
  intro es
  induction es with
  | nil => intro g sec hsec hx; exact Or.inl ⟨sec, hsec, hx⟩
  | cons e es ih =>
    intro g sec hsec hx
    rw [pushIssues] at hsec
    rcases ih _ sec hsec hx with h | ⟨im, him, hxe⟩
    · rcases h with ⟨sec0, hsec0, hx0⟩
      rcases mem_pushEntry hsec0 hx0 with h' | h'
      · exact Or.inl h'
      · exact Or.inr ⟨e, List.mem_cons_self _ _, h'⟩
    · exact Or.inr ⟨im, List.mem_cons_of_mem _ him, hxe⟩

theorem mem_pushStandalones {x : Entry} :
    ∀ (lone : List PRInput) (g : List (String × List Entry)) (sec : String × List Entry),
      sec ∈ pushStandalones g lone → x ∈ sec.2 →
      (∃ sec0 ∈ g, x ∈ sec0.2) ∨ ∃ pr ∈ lone, x = standaloneEntryOf pr := by
  intro lone
  induction lone with
  | nil => intro g sec hsec hx; exact Or.inl ⟨sec, hsec, hx⟩
  | cons pr lone ih =>
    intro g sec hsec hx
    rw [pushStandalones] at hsec
    rcases ih _ sec hsec hx with h | ⟨pr', hpr', hxe⟩
    · rcases h with ⟨sec0, hsec0, hx0⟩
      rcases mem_pushEntry hsec0 hx0 with h' | h'
      · exact Or.inl h'
      · exact Or.inr ⟨pr, List.mem_cons_self _ _, h'⟩
    · exact Or.inr ⟨pr', List.mem_cons_of_mem _ hpr', hxe⟩

theorem mem_emptyGroups_empty {sec : String × List Entry} (h : sec ∈ emptyGroups) :
    sec.2 = [] := by
  unfold emptyGroups at h
  rcases List.mem_map.mp h with ⟨n, _, heq⟩
  rw [← heq]

theorem mem_sectionGroups {prs : List PRInput} {sec : String × List Entry} {x : Entry}
    (hsec : sec ∈ sectionGroups prs) (hx : x ∈ sec.2) :
    (∃ im ∈ (buildIssueMap prs).1, x = issueEntryOf im)
    ∨ ∃ pr ∈ (buildIssueMap prs).2, x = standaloneEntryOf pr := by
  unfold sectionGroups at hsec
  rcases mem_pushStandalones _ _ sec hsec hx with h | h
  · rcases h with ⟨sec0, hsec0, hx0⟩
    rcases mem_pushIssues _ _ sec0 hsec0 hx0 with h' | h'
    · rcases h' with ⟨sec1, hsec1, hx1⟩
      rw [mem_emptyGroups_empty hsec1] at hx1
      simp at hx1
    · exact Or.inl h'
  · exact Or.inr h

theorem mem_insertSorted {p x : Nat} :
    ∀ l : List Nat, p ∈ insertSorted x l ↔ p = x ∨ p ∈ l := by
  intro l
  induction l with
  | nil => simp [insertSorted]
  | cons y ys ih =>
    by_cases h : x ≤ y
    · simp [insertSorted, h]
    · simp only [insertSorted, if_neg h, List.mem_cons, ih]
      tauto

theorem pairwise_insertSorted {x : Nat} :
    ∀ {l : List Nat}, List.Pairwise (fun a b : Nat => a ≤ b) l →
      List.Pairwise (fun a b : Nat => a ≤ b) (insertSorted x l) := by
  intro l
  induction l with
  | nil => intro _; simp [insertSorted]
  | cons y ys ih =>
    intro h
    rcases List.pairwise_cons.mp h with ⟨hy, hys⟩
    by_cases hxy : x ≤ y
    · rw [insertSorted, if_pos hxy]
      refine List.pairwise_cons.mpr ⟨?_, h⟩
      intro b hb
      rcases List.mem_cons.mp hb with rfl | hb
      · exact hxy
      · exact Nat.le_trans hxy (hy b hb)
    · rw [insertSorted, if_neg hxy]
      refine List.pairwise_cons.mpr ⟨?_, ih hys⟩
      intro b hb
      rcases (mem_insertSorted _).mp hb with rfl | hb
      · omega
      · exact hy b hb

theorem sortNat_pairwise (l : List Nat) :
    List.Pairwise (fun a b : Nat => a ≤ b) (sortNat l) := by
  unfold sortNat
  induction l with
  | nil => simp
  | cons x xs ih => exact pairwise_insertSorted ih

theorem mem_sortNat {p : Nat} {l : List Nat} : p ∈ sortNat l ↔ p ∈ l := by
  unfold sortNat
  induction l with
  | nil => simp
  | cons x xs ih =>
    rw [List.foldr_cons, mem_insertSorted, ih]
    simp

/-! ## C4 — one entry per issue, ascending PR references -/

/-- C4: an issue linked by merged pull requests gets exactly one entry
across all sections (not one per pull request); every issue entry lists its
pull-request numbers in ascending order; and the documented example — issue
10 linked by PRs 12 and 11 — renders as a single entry listing `#11, #12`. -/
theorem issue_single_entry (prs : List PRInput) (inum : Nat)
    (hlinked : ∃ pr ∈ prs, ∃ ti, (inum, ti) ∈ pr.linked) :
    countEntries (sectionGroups prs) (isIssueEntryFor inum) = 1 ∧
    (∀ sec ∈ sectionGroups prs, ∀ ti ps, Entry.issue inum ti ps ∈ sec.2 →
      List.Pairwise (fun a b : Nat => a ≤ b) ps) ∧
    renderEntry (issueEntryOf ⟨10, "[Feat] add X", [12, 11]⟩)
      = "#10 [Feat] add X\n↳ PRs: #11, #12" := by
  refine ⟨?_, ?_, by decide⟩
  · rw [countEntries_sectionGroups]
    have hstand : ((buildIssueMap prs).2.map standaloneEntryOf).countP
        (isIssueEntryFor inum) = 0 := by
      rw [List.countP_eq_zero]
      intro e he
      rcases List.mem_map.mp he with ⟨pr, _, rfl⟩
      simp [standaloneEntryOf, isIssueEntryFor]
    rw [hstand]
    have hmap : ((buildIssueMap prs).1.map issueEntryOf).countP (isIssueEntryFor inum)
        = ((buildIssueMap prs).1.map IMapEntry.num).count inum := by
      rw [List.countP_map, List.count_eq_countP, List.countP_map]
      rfl
    rw [hmap]
    have hle := List.nodup_iff_count_le_one.mp (buildIssueMap_keys_nodup prs) inum
    have hpos : 0 < ((buildIssueMap prs).1.map IMapEntry.num).count inum := by
      rcases hlinked with ⟨pr, hpr, ti, hti⟩
      obtain ⟨im, him, hnum, _⟩ := buildIssueMap_mem_target hpr hti
      exact List.count_pos_iff.mpr (List.mem_map.mpr ⟨im, him, hnum⟩)
    omega
  · intro sec hsec ti ps hx
    rcases mem_sectionGroups hsec hx with ⟨im, _, hxe⟩ | ⟨pr, _, hxe⟩
    · unfold issueEntryOf at hxe
      injection hxe with h1 h2 h3
      rw [h3]
      exact sortNat_pairwise im.prs
    · unfold standaloneEntryOf at hxe
      simp at hxe

/-- Witness for C4 at the documented two-PR input. -/
theorem issue_single_entry_witness :
    countEntries (sectionGroups c4Input) (isIssueEntryFor 10) = 1 :=
  (issue_single_entry c4Input 10
    ⟨⟨11, "[Feat] implement part A", [(10, "[Feat] add X")]⟩, by decide,
      "[Feat] add X", by decide⟩).1

/-! ## C5 — each pull request's section occurrences -/

/-- C5 counterexample: pull request 5 closes two issues with different
prefixes and therefore occurs under two different sections. -/
theorem pr_two_sections_counterexample :
    c5Input.map PRInput.number = [5] ∧
    mentionsCountSections (sectionGroups c5Input) 5 = 2 := by decide

/-- C5 (amended): with distinct pull-request numbers, every merged pull
request occurs under at least one section; one with no linked issues occurs
under exactly one section; but one with several linked issues occurs in the
entry of each linked issue, which may lie in different sections. -/
theorem pr_section_occurrences (prs : List PRInput)
    (hnodup : (prs.map PRInput.number).Nodup) :
    (∀ pr ∈ prs, 1 ≤ mentionsCountSections (sectionGroups prs) pr.number) ∧
    (∀ pr ∈ prs, pr.linked = [] →
      mentionsCountSections (sectionGroups prs) pr.number = 1) := by
  constructor
  · intro pr hpr
    unfold mentionsCountSections
    apply sections_pos_of_entries_pos
    rw [countEntries_sectionGroups]
    cases hl : pr.linked with
    | nil =>
      have hlone : pr ∈ (buildIssueMap prs).2 := by
        rw [buildIssueMap_snd]
        exact List.mem_filter.mpr ⟨hpr, by simp [hl]⟩
      have hpos : 0 < ((buildIssueMap prs).2.map standaloneEntryOf).countP
          (fun e => e.mentionsPR pr.number) := by
        apply List.countP_pos_iff.mpr
        exact ⟨standaloneEntryOf pr, List.mem_map.mpr ⟨pr, hlone, rfl⟩,
          by simp [standaloneEntryOf, Entry.mentionsPR]⟩
      omega
    | cons i0 rest =>
      have hi0 : i0 ∈ pr.linked := by
        rw [hl]
        exact List.mem_cons_self _ _
      obtain ⟨im, him, _, hprm⟩ := buildIssueMap_mem_target hpr hi0
      have hpos : 0 < ((buildIssueMap prs).1.map issueEntryOf).countP
          (fun e => e.mentionsPR pr.number) := by
        apply List.countP_pos_iff.mpr
        refine ⟨issueEntryOf im, List.mem_map.mpr ⟨im, him, rfl⟩, ?_⟩
        simp only [issueEntryOf, Entry.mentionsPR]
        rw [List.contains_iff_exists_mem_beq]
        exact ⟨pr.number, mem_sortNat.mpr hprm, by simp⟩
      omega
  · intro pr hpr hl
    unfold mentionsCountSections
    have hEnt : countEntries (sectionGroups prs) (fun e => e.mentionsPR pr.number) = 1 := by
      rw [countEntries_sectionGroups]
      have hiz : ((buildIssueMap prs).1.map issueEntryOf).countP
          (fun e => e.mentionsPR pr.number) = 0 := by
        rw [List.countP_eq_zero]
        intro e he hmen
        rcases List.mem_map.mp he with ⟨im, him, rfl⟩
        simp only [issueEntryOf, Entry.mentionsPR] at hmen
        obtain ⟨a', ha', heq⟩ := List.contains_iff_exists_mem_beq.mp hmen
        have hmem : pr.number ∈ im.prs := by
          have : pr.number = a' := by simpa using heq
          rw [this]
          exact mem_sortNat.mp ha'
        obtain ⟨pr', hpr', hnum, hne⟩ := buildIssueMap_prs_src im him pr.number hmem
        have heqpr : pr' = pr := List.inj_on_of_nodup_map hnodup hpr' hpr hnum
        rw [heqpr, hl] at hne
        simp at hne
      have hsz : ((buildIssueMap prs).2.map standaloneEntryOf).countP
          (fun e => e.mentionsPR pr.number) = 1 := by
        rw [buildIssueMap_snd]
        have hpe : ((prs.filter (fun pr => pr.linked.isEmpty)).map standaloneEntryOf).countP
            (fun e => e.mentionsPR pr.number)
            = (prs.filter (fun pr => pr.linked.isEmpty)).countP
              (fun pr' => pr'.number == pr.number) := by
          rw [List.countP_map]
          rfl
        rw [hpe]
        have hle : (prs.filter (fun pr => pr.linked.isEmpty)).countP
              (fun pr' => pr'.number == pr.number)
            ≤ prs.countP (fun pr' => pr'.number == pr.number) :=
          (List.filter_sublist prs).countP_le _
        have hcount : prs.countP (fun pr' => pr'.number == pr.number) ≤ 1 := by
          have hcc : prs.countP (fun pr' => pr'.number == pr.number)
              = (prs.map PRInput.number).count pr.number := by
            rw [List.count_eq_countP, List.countP_map]
            rfl
          rw [hcc]
          exact List.nodup_iff_count_le_one.mp hnodup pr.number
        have hpos : 0 < (prs.filter (fun pr => pr.linked.isEmpty)).countP
              (fun pr' => pr'.number == pr.number) := by
          apply List.countP_pos_iff.mpr
          exact ⟨pr, List.mem_filter.mpr ⟨hpr, by simp [hl]⟩, by simp⟩
        omega
      omega
    have h1 : 0 < (sectionGroups prs).countP
        (fun sec => sec.2.any (fun e => e.mentionsPR pr.number)) :=
      sections_pos_of_entries_pos (by rw [hEnt]; decide)
    have h2 := sections_le_entries (sectionGroups prs) (fun e => e.mentionsPR pr.number)
    rw [hEnt] at h2
    omega

/-- Witness for the amended C5 at a one-PR standalone input. -/
theorem pr_section_occurrences_witness :
    mentionsCountSections (sectionGroups [⟨7, "solo work", []⟩]) 7 = 1 :=
  (pr_section_occurrences [⟨7, "solo work", []⟩] (by decide)).2
    ⟨7, "solo work", []⟩ (by decide) rfl

/-! ## C6 — draft-release publishing -/

theorem countP_map_eq {α β : Type} (f : α → β) (p : β → Bool) (q : α → Bool) (l : List α)
    (h : ∀ a ∈ l, p (f a) = q a) : (l.map f).countP p = l.countP q := by
  induction l with
  | nil => rfl
  | cons a l ih =>
    rw [List.map_cons, List.countP_cons, List.countP_cons,
      ih (fun a ha => h a (List.mem_cons_of_mem _ ha)), h a (List.mem_cons_self a l)]

theorem updateRelease_skeleton (rs : List Release) (rid : Nat) (nm bd : String) :
    (updateRelease rs rid nm bd).map (fun r => (r.id, r.draft))
      = rs.map (fun r => (r.id, r.draft)) := by
  unfold updateRelease
  rw [List.map_map]
  apply List.map_congr_left
  intro r _
  by_cases h : r.id = rid <;> simp [h]

theorem countP_updateRelease (rs : List Release) (rid : Nat) (nm bd : String) :
    (updateRelease rs rid nm bd).countP (fun r => r.draft)
      = rs.countP (fun r => r.draft) := by
  unfold updateRelease
  apply countP_map_eq
  intro r _
  by_cases h : r.id = rid <;> simp [h]

theorem findDraft_none_of_no_draft {rs : List Release}
    (h : rs.countP (fun r => r.draft) = 0) : findDraft rs = none := by
  unfold findDraft
  rw [List.find?_eq_none]
  intro x hx
  exact List.countP_eq_zero.mp h x (List.mem_of_mem_take hx)

theorem findDraft_update_isSome {rs : List Release} (rid : Nat) (nm bd : String) {d : Release}
    (h : findDraft rs = some d) :
    ∃ d', findDraft (updateRelease rs rid nm bd) = some d' := by
  have hmem : d ∈ rs.take 10 := List.mem_of_find?_eq_some h
  have hd : d.draft = true := List.find?_some h
  have hsome : (((updateRelease rs rid nm bd).take 10).find? (fun r => r.draft)).isSome := by
    rw [List.find?_isSome]
    refine ⟨if d.id = rid then { d with name := nm, body := bd } else d, ?_, ?_⟩
    · unfold updateRelease
      rw [← List.map_take]
      by_cases hid : d.id = rid
      · rw [if_pos hid]
        exact List.mem_map.mpr ⟨d, hmem, by rw [if_pos hid]⟩
      · rw [if_neg hid]
        exact List.mem_map.mpr ⟨d, hmem, by rw [if_neg hid]⟩
    · by_cases hid : d.id = rid <;> simp [hid, hd]
  rcases Option.isSome_iff_exists.mp hsome with ⟨d', hd'⟩
  exact ⟨d', hd'⟩

theorem publish_update_of_found {s : RelState} {b : String} {d : Release}
    (h : findDraft s.releases = some d) :
    publish s b
      = { s with releases := updateRelease s.releases d.id ("Release " ++ d.tag) b } := by
  unfold publish
  rw [h]

theorem publish_create_of_none {s : RelState} {b : String}
    (h : findDraft s.releases = none) :
    publish s b
      = { releases := ⟨s.nextId, nextVersion (lastTagOf s.releases),
            "Release " ++ nextVersion (lastTagOf s.releases), b, true,
            (s.releases.map (fun r => r.createdAt + 1)).foldl max 0⟩ :: s.releases,
          nextId := s.nextId + 1 } := by
  unfold publish
  rw [h]

theorem countDrafts_publish_of_none {s : RelState} {b : String}
    (h : countDrafts s = 0) : countDrafts (publish s b) = 1 := by
  rw [publish_create_of_none (findDraft_none_of_no_draft h)]
  unfold countDrafts at h ⊢
  rw [List.countP_cons]
  simp [h]

/-- C6 counterexample: `c6State` holds exactly one draft release, but it is
the 11th listed release; the publisher's lookup reads only the first 10, so
one run creates a second draft and a second run leaves both drafts. -/
theorem publish_duplicate_draft_counterexample :
    countDrafts c6State = 1 ∧
    countDrafts (publish c6State "body") = 2 ∧
    countDrafts (publish (publish c6State "body") "body") = 2 := by decide

/-- C6 (amended): when a draft release exists among the 10 most recently
listed releases, publishing updates that draft in place — the id/draft-flag
skeleton of the release list is unchanged; when no draft exists at all, one
draft is created; hence publishing twice from a state with at most one
draft, none of it hidden beyond the 10-release window, leaves at most one
draft. -/
theorem publish_draft_behaviour :
    (∀ (s : RelState) (b : String) (d : Release), findDraft s.releases = some d →
      (publish s b).releases.map (fun r => (r.id, r.draft))
        = s.releases.map (fun r => (r.id, r.draft))) ∧
    (∀ (s : RelState) (b : String), countDrafts s = 0 → countDrafts (publish s b) = 1) ∧
    (∀ (s : RelState) (b b' : String), countDrafts s ≤ 1 →
      (∀ r ∈ s.releases.drop 10, r.draft = false) →
      countDrafts (publish (publish s b) b') ≤ 1) := by
  refine ⟨?_, ?_, ?_⟩
  · intro s b d h
    rw [publish_update_of_found h]
    exact updateRelease_skeleton s.releases d.id ("Release " ++ d.tag) b
  · intro s b h
    exact countDrafts_publish_of_none h
  · intro s b b' h1 h2
    rcases Nat.le_one_iff_eq_zero_or_eq_one.mp h1 with h0 | hone
    · have hpub1 := publish_create_of_none (b := b) (findDraft_none_of_no_draft h0)
      have hfind2 : findDraft (publish s b).releases
          = some ⟨s.nextId, nextVersion (lastTagOf s.releases),
              "Release " ++ nextVersion (lastTagOf s.releases), b, true,
              (s.releases.map (fun r => r.createdAt + 1)).foldl max 0⟩ := by
        rw [hpub1]
        show ((⟨s.nextId, nextVersion (lastTagOf s.releases),
            "Release " ++ nextVersion (lastTagOf s.releases), b, true,
            (s.releases.map (fun r => r.createdAt + 1)).foldl max 0⟩ :: s.releases).take 10).find?
            (fun r => r.draft) = _
        rw [show (10 : Nat) = 9 + 1 from rfl, List.take_succ_cons]
        exact List.find?_cons_of_pos _ rfl
      rw [publish_update_of_found hfind2]
      show (updateRelease (publish s b).releases _ _ b').countP (fun r => r.draft) ≤ 1
      rw [countP_updateRelease]
      have : countDrafts (publish s b) = 1 := countDrafts_publish_of_none h0
      unfold countDrafts at this
      omega
    · have hpos : 0 < s.releases.countP (fun r => r.draft) := by
        unfold countDrafts at hone; omega
      obtain ⟨x, hx, hxd⟩ := List.countP_pos_iff.mp hpos
      have hxtake : x ∈ s.releases.take 10 := by
        rw [← List.take_append_drop 10 s.releases] at hx
        rcases List.mem_append.mp hx with h | h
        · exact h
        · exact absurd hxd (by simp [h2 x h])
      obtain ⟨d, hd⟩ := Option.isSome_iff_exists.mp
        (show (findDraft s.releases).isSome by
          unfold findDraft
          exact List.find?_isSome.mpr ⟨x, hxtake, hxd⟩)
      have hpub1 := publish_update_of_found (b := b) hd
      obtain ⟨d', hd'⟩ := findDraft_update_isSome d.id ("Release " ++ d.tag) b hd
      have hfind2 : findDraft (publish s b).releases = some d' := by
        rw [hpub1]
        exact hd'
      rw [publish_update_of_found hfind2]
      show (updateRelease (publish s b).releases _ _ b').countP (fun r => r.draft) ≤ 1
      rw [countP_updateRelease, hpub1]
      show (updateRelease s.releases _ _ b).countP (fun r => r.draft) ≤ 1
      rw [countP_updateRelease]
      unfold countDrafts at h1
      exact h1

/-- Witness for the amended C6 from the empty release list. -/
theorem publish_draft_behaviour_witness :
    countDrafts (publish (publish { releases := [], nextId := 0 } "notes") "notes2") ≤ 1 :=
  publish_draft_behaviour.2.2 { releases := [], nextId := 0 } "notes" "notes2"
    (by decide) (by intro r hr; simp at hr)

/-! ## C9 — optional fetch failures are swallowed -/

/-- C9: a failed releases-list fetch is treated as "no last release", a
failed linked-issue fetch is treated as "no linked issues", and the run
proceeds: the rendered notes for failing optional fetches equal the notes
for successful empty fetches. -/
theorem optionalFetchFailures_swallowed :
    (∀ e, getLinkedIssuesResult (Except.error e) = []) ∧
    (∀ e, lastReleaseResult (Except.error e) = none) ∧
    (∀ (e e' : String) (prs : List RawPR),
      buildNotes (Except.error e) (fun _ => Except.error e') prs
        = buildNotes (Except.ok []) (fun _ => Except.ok []) prs) :=
  ⟨fun _ => rfl, fun _ => rfl, fun _ _ _ => rfl⟩

/-! ## C10 — the linked-issue query returns at most ten issues -/

/-- C10: `getLinkedIssues` returns exactly the first 10 closing issues, so
its result never exceeds 10 and issues beyond the tenth are dropped. -/
theorem getLinkedIssues_at_most_ten (allClosing : List (Nat × String)) :
    (getLinkedIssues allClosing).length ≤ 10 ∧
    getLinkedIssues allClosing = allClosing.take 10 := by
  have hmap : getLinkedIssues allClosing = allClosing.take 10 := by
    simp [getLinkedIssues, closingIssuesResponse]
  refine ⟨?_, hmap⟩
  rw [hmap]
  exact List.length_take_le 10 allClosing

end ReleaseNotes
